import Mathlib

/-!
Verification of the `donkeycar` datastore-v2 module
(`donkeycar/parts/datastore_v2.py`): a shallow embedding of the
`Seekable` line-indexed file, the `Catalog` / `CatalogMetadata` segment
layer, the `Manifest` datastore and its `ManifestIterator`, together
with a model of the parts of Python's `json` module that the datastore
uses (`json.dumps(record, allow_nan=False, sort_keys=True)` and
`json.loads`).

Conventions of the embedding:
* Python exceptions are modelled with `Except`/`Option`; when the Python
  object survives the exception with a mutated state, the error value
  carries that state.
* File contents are modelled as `List Char` (the files are opened in
  text mode with utf-8 encoding; all content written by the module is
  ASCII, so character counts coincide with byte counts).
* The JSON value domain `Jv` covers null, booleans, integers, the
  non-finite floats (`nan`, `inf`, `-inf`, which `allow_nan=False`
  rejects), strings over characters that need no escaping, arrays and
  objects.  This is the value domain the datastore's records range
  over in the model.
-/

namespace DonkeyDS

/-! ## Characters used by the JSON serializer -/

def quoteChar : Char := Char.ofNat 34

def backslashChar : Char := Char.ofNat 92

def lbraceChar : Char := Char.ofNat 123

def rbraceChar : Char := Char.ofNat 125

def digitChar (d : Nat) : Char := Char.ofNat (48 + d)

def isDigitChar (c : Char) : Bool := decide (48 ≤ c.toNat) && decide (c.toNat ≤ 57)

def digitVal (c : Char) : Nat := c.toNat - 48

/-- A character that Python's `json.dumps` emits verbatim inside a string
literal (printable ASCII, no quote, no backslash): for such characters
serialization performs no escaping. The embedding restricts JSON strings
to these characters. -/
def strOk (c : Char) : Bool :=
  c != quoteChar && c != backslashChar && decide (32 ≤ c.toNat) && decide (c.toNat ≤ 126)

/-- Decimal digits of a natural number, most significant first
(the digits of Python's `repr` of a non-negative int). -/
def natDigs (n : Nat) : List Char :=
  if h : n < 10 then [digitChar n]
  else natDigs (n / 10) ++ [digitChar (n % 10)]
decreasing_by exact Nat.div_lt_self (by omega) (by omega)

/-- Python's `repr` of an int, as characters. -/
def intChars (n : Int) : List Char :=
  if n < 0 then '-' :: natDigs n.natAbs else natDigs n.toNat

/-! ## JSON values -/

/-- JSON values as the datastore's records range over them.  `jnan`,
`jinf`, `jninf` are the non-finite floats, which
`json.dumps(..., allow_nan=False)` rejects with a `ValueError`. -/
inductive Jv where
  | jnull
  | jbool (b : Bool)
  | jint (n : Int)
  | jnan
  | jinf
  | jninf
  | jstr (s : String)
  | jarr (xs : List Jv)
  | jobj (kvs : List (String × Jv))

mutual

/-- Does the value contain a non-finite float anywhere? -/
def hasNonFinite : Jv → Bool
  | .jnan => true
  | .jinf => true
  | .jninf => true
  | .jarr xs => hasNFElems xs
  | .jobj kvs => hasNFMembers kvs
  | _ => false

def hasNFElems : List Jv → Bool
  | [] => false
  | x :: xs => hasNonFinite x || hasNFElems xs

def hasNFMembers : List (String × Jv) → Bool
  | [] => false
  | (_, v) :: kvs => hasNonFinite v || hasNFMembers kvs

end

/-! ## Sorting object keys (`sort_keys=True`) -/

def keyLe (a b : String) : Bool := decide (a ≤ b)

def insPair (p : String × Jv) : List (String × Jv) → List (String × Jv)
  | [] => [p]
  | q :: qs => if keyLe p.1 q.1 then p :: q :: qs else q :: insPair p qs

/-- Stable insertion sort of the key/value pairs by key: the order
`json.dumps(..., sort_keys=True)` emits an object's members in. -/
def sortPairs : List (String × Jv) → List (String × Jv)
  | [] => []
  | p :: ps => insPair p (sortPairs ps)

theorem insPair_sizeOf (p : String × Jv) (l : List (String × Jv)) :
    sizeOf (insPair p l) = 1 + sizeOf p + sizeOf l := by
  induction l with
  | nil => simp [insPair]
  | cons q qs ih =>
      simp only [insPair]
      split
      · simp [List.cons.sizeOf_spec]
      · simp [List.cons.sizeOf_spec, ih]; omega

theorem sortPairs_sizeOf (l : List (String × Jv)) :
    sizeOf (sortPairs l) = sizeOf l := by
  induction l with
  | nil => simp [sortPairs]
  | cons p ps ih =>
      simp only [sortPairs]
      rw [insPair_sizeOf, ih, List.cons.sizeOf_spec]

/-! ## Serialization: `json.dumps(v, allow_nan=False, sort_keys=True)`

`dumpVal` returns `none` exactly when serialization raises: on a
non-finite float (`allow_nan=False`) or on a string outside the
escape-free character set handled by the embedding.  The output uses
the default separators `", "` and `": "` of `json.dumps`. -/

def dumpKey (k : String) : Option (List Char) :=
  if k.data.all strOk then some (quoteChar :: k.data ++ [quoteChar]) else none

mutual

def dumpVal : Jv → Option (List Char)
  | .jnull => some ("null".data)
  | .jbool true => some ("true".data)
  | .jbool false => some ("false".data)
  | .jint n => some (intChars n)
  | .jnan => none
  | .jinf => none
  | .jninf => none
  | .jstr s => if s.data.all strOk then some (quoteChar :: s.data ++ [quoteChar]) else none
  | .jarr xs =>
      match dumpElems xs with
      | some body => some ('[' :: body ++ [']'])
      | none => none
  | .jobj kvs =>
      match dumpMembers (sortPairs kvs) with
      | some body => some (lbraceChar :: body ++ [rbraceChar])
      | none => none
termination_by v => sizeOf v
decreasing_by
  all_goals simp [Jv.jarr.sizeOf_spec, Jv.jobj.sizeOf_spec, List.cons.sizeOf_spec,
    Prod.mk.sizeOf_spec, sortPairs_sizeOf]
  all_goals omega

/-- The elements of an array, `", "`-separated. -/
def dumpElems : List Jv → Option (List Char)
  | [] => some []
  | x :: xs =>
      match dumpVal x, dumpTail xs with
      | some cx, some rest => some (cx ++ rest)
      | _, _ => none
termination_by xs => sizeOf xs
decreasing_by
  all_goals simp [Jv.jarr.sizeOf_spec, Jv.jobj.sizeOf_spec, List.cons.sizeOf_spec,
    Prod.mk.sizeOf_spec, sortPairs_sizeOf]
  all_goals omega

def dumpTail : List Jv → Option (List Char)
  | [] => some []
  | x :: xs =>
      match dumpVal x, dumpTail xs with
      | some cx, some rest => some (',' :: ' ' :: cx ++ rest)
      | _, _ => none
termination_by xs => sizeOf xs
decreasing_by
  all_goals simp [Jv.jarr.sizeOf_spec, Jv.jobj.sizeOf_spec, List.cons.sizeOf_spec,
    Prod.mk.sizeOf_spec, sortPairs_sizeOf]
  all_goals omega

/-- The members of an object, `", "`-separated, each `key: value`. -/
def dumpMembers : List (String × Jv) → Option (List Char)
  | [] => some []
  | (k, v) :: kvs =>
      match dumpKey k, dumpVal v, dumpMTail kvs with
      | some ck, some cv, some rest => some (ck ++ ':' :: ' ' :: cv ++ rest)
      | _, _, _ => none
termination_by kvs => sizeOf kvs
decreasing_by
  all_goals simp [Jv.jarr.sizeOf_spec, Jv.jobj.sizeOf_spec, List.cons.sizeOf_spec,
    Prod.mk.sizeOf_spec, sortPairs_sizeOf]
  all_goals omega

def dumpMTail : List (String × Jv) → Option (List Char)
  | [] => some []
  | (k, v) :: kvs =>
      match dumpKey k, dumpVal v, dumpMTail kvs with
      | some ck, some cv, some rest => some (',' :: ' ' :: ck ++ ':' :: ' ' :: cv ++ rest)
      | _, _, _ => none
termination_by kvs => sizeOf kvs
decreasing_by
  all_goals simp [Jv.jarr.sizeOf_spec, Jv.jobj.sizeOf_spec, List.cons.sizeOf_spec,
    Prod.mk.sizeOf_spec, sortPairs_sizeOf]
  all_goals omega

end

/-- `json.dumps(record, allow_nan=False, sort_keys=True)`:
the single line of text a record is serialized to, or `none` when
serialization raises `ValueError`. -/
def dumps (v : Jv) : Option String := (dumpVal v).map (fun l => String.mk l)

/-! ## Parsing: the `json.loads` model

A recursive-descent parser over the characters of a line.  It is
total via an explicit fuel argument; `loads` supplies fuel
`length + 1`, which is shown sufficient for every line `dumps`
produces.  (On inputs outside the serializer's image the parser may
also fail; the datastore only relies on `loads` succeeding on lines
it wrote itself, and treats any failure as a skipped record.) -/

/-- Consume the body of a string literal up to the closing quote. -/
def takeStr : List Char → Option (List Char × List Char)
  | [] => none
  | c :: r =>
      if c = quoteChar then some ([], r)
      else
        match takeStr r with
        | some (s, rest) => some (c :: s, rest)
        | none => none

def digsVal (ds : List Char) : Nat := ds.foldl (fun a c => a * 10 + digitVal c) 0

/-- Parse a non-empty run of decimal digits. -/
def pNat (cs : List Char) : Option (Nat × List Char) :=
  let ds := cs.takeWhile isDigitChar
  if ds.isEmpty then none else some (digsVal ds, cs.dropWhile isDigitChar)

/-- Expect the remaining characters of a fixed token (after its first
character selected the branch), yielding `v`. -/
def pTok (tok : List Char) (v : Jv) (cs : List Char) : Option (Jv × List Char) :=
  if tok.isPrefixOf cs then some (v, cs.drop tok.length) else none

/-- Between the quotes of a string literal. -/
def pStrBody (cs : List Char) : Option (Jv × List Char) :=
  match takeStr cs with
  | some (s, r) => some (.jstr (String.mk s), r)
  | none => none

def pNeg (cs : List Char) : Option (Jv × List Char) :=
  match pNat cs with
  | some (n, r) => some (.jint (-(n : Int)), r)
  | none => none

def pPos (cs : List Char) : Option (Jv × List Char) :=
  match pNat cs with
  | some (n, r) => some (.jint ((n : Int)), r)
  | none => none

/-- After `[`: either an empty array or a first element parsed by `pv`
followed by the remaining elements parsed by `pe`. -/
def pArrBody (pv : List Char → Option (Jv × List Char))
    (pe : List Char → Option (List Jv × List Char)) : List Char → Option (Jv × List Char)
  | [] => none
  | c2 :: r2 =>
      if c2 = ']' then some (.jarr [], r2)
      else
        match pv (c2 :: r2) with
        | some (v, r3) =>
            match pe r3 with
            | some (vs, r4) => some (.jarr (v :: vs), r4)
            | none => none
        | none => none

/-- One `"key": value` member of an object. -/
def pMemberBody (pv : List Char → Option (Jv × List Char)) :
    List Char → Option ((String × Jv) × List Char)
  | [] => none
  | c :: r =>
      if c = quoteChar then
        match takeStr r with
        | some (k, r2) =>
            match r2 with
            | ':' :: ' ' :: r3 =>
                match pv r3 with
                | some (v, r4) => some ((String.mk k, v), r4)
                | none => none
            | _ => none
        | none => none
      else none

/-- After `{`: either an empty object or a first member parsed by `pm`
followed by the remaining members parsed by `pms`. -/
def pObjBody (pm : List Char → Option ((String × Jv) × List Char))
    (pms : List Char → Option (List (String × Jv) × List Char)) :
    List Char → Option (Jv × List Char)
  | [] => none
  | c2 :: r2 =>
      if c2 = rbraceChar then some (.jobj [], r2)
      else
        match pm (c2 :: r2) with
        | some (kv, r3) =>
            match pms r3 with
            | some (kvs, r4) => some (.jobj (kv :: kvs), r4)
            | none => none
        | none => none

/-- After a `,` separator: a space, one item, and the remaining items. -/
def pAfterComma {α : Type} (p : List Char → Option (α × List Char))
    (q : List Char → Option (List α × List Char)) : List Char → Option (List α × List Char)
  | ' ' :: r2 =>
      match p r2 with
      | some (v, r3) =>
          match q r3 with
          | some (vs, r4) => some (v :: vs, r4)
          | none => none
      | none => none
  | _ => none

mutual

def pVal : Nat → List Char → Option (Jv × List Char)
  | 0, _ => none
  | _ + 1, [] => none
  | f + 1, c :: rest =>
      if c = 'n' then pTok ("ull".data) .jnull rest
      else if c = 't' then pTok ("rue".data) (.jbool true) rest
      else if c = 'f' then pTok ("alse".data) (.jbool false) rest
      else if c = quoteChar then pStrBody rest
      else if c = '-' then pNeg rest
      else if isDigitChar c then pPos (c :: rest)
      else if c = '[' then pArrBody (pVal f) (pElems f) rest
      else if c = lbraceChar then pObjBody (pMember f) (pMembers f) rest
      else none

/-- Parse the remaining elements of an array after the first one:
either the closing bracket or `", "` and another element. -/
def pElems : Nat → List Char → Option (List Jv × List Char)
  | 0, _ => none
  | _ + 1, [] => none
  | f + 1, c :: r =>
      if c = ']' then some ([], r)
      else if c = ',' then pAfterComma (pVal f) (pElems f) r
      else none

/-- Parse one `"key": value` member of an object. -/
def pMember : Nat → List Char → Option ((String × Jv) × List Char)
  | 0, _ => none
  | f + 1, cs => pMemberBody (pVal f) cs

/-- Parse the remaining members of an object after the first one. -/
def pMembers : Nat → List Char → Option (List (String × Jv) × List Char)
  | 0, _ => none
  | _ + 1, [] => none
  | f + 1, c :: r =>
      if c = rbraceChar then some ([], r)
      else if c = ',' then pAfterComma (pMember f) (pMembers f) r
      else none

end

/-- `json.loads` on a single line: parse a JSON value that must
consume the whole line. -/
def loads (s : String) : Option Jv :=
  match pVal (2 * s.data.length + 2) s.data with
  | some (v, []) => some v
  | _ => none

/-! ## Fuel requirements of the parser -/

mutual

/-- Fuel that suffices for `pVal` on the serialized form of `v`. -/
def wVal : Jv → Nat
  | .jarr xs => 1 + wTail xs
  | .jobj kvs => 1 + wMTail kvs
  | _ => 1

/-- Fuel that suffices for `pElems` on the serialized tail of an array. -/
def wTail : List Jv → Nat
  | [] => 1
  | x :: xs => 1 + wVal x + wTail xs

/-- Fuel that suffices for `pMembers` on the serialized tail of an object. -/
def wMTail : List (String × Jv) → Nat
  | [] => 1
  | kv :: kvs => 1 + wVal kv.2 + wMTail kvs

end

/-! ## Key normalization

`json.dumps(..., sort_keys=True)` emits every object's members sorted
by key, so parsing a serialized value back gives the value with all
its objects key-sorted: `normVal`. -/

mutual

def normVal : Jv → Jv
  | .jarr xs => .jarr (normElems xs)
  | .jobj kvs => .jobj (normMembers (sortPairs kvs))
  | v => v
termination_by v => sizeOf v
decreasing_by
  all_goals simp [Jv.jarr.sizeOf_spec, Jv.jobj.sizeOf_spec, sortPairs_sizeOf]
  all_goals omega

def normElems : List Jv → List Jv
  | [] => []
  | x :: xs => normVal x :: normElems xs
termination_by xs => sizeOf xs
decreasing_by
  all_goals simp [List.cons.sizeOf_spec]
  all_goals omega

def normMembers : List (String × Jv) → List (String × Jv)
  | [] => []
  | (k, v) :: kvs => (k, normVal v) :: normMembers kvs
termination_by kvs => sizeOf kvs
decreasing_by
  all_goals simp [List.cons.sizeOf_spec, Prod.mk.sizeOf_spec]
  all_goals omega

end

/-! ## Lemmas: decimal digits round-trip -/

def noLeadDigit : List Char → Bool
  | [] => true
  | c :: _ => !(isDigitChar c)

theorem isDigitChar_digitChar {d : Nat} (h : d < 10) : isDigitChar (digitChar d) = true := by
  interval_cases d <;> decide

theorem digitVal_digitChar {d : Nat} (h : d < 10) : digitVal (digitChar d) = d := by
  interval_cases d <;> decide

theorem natDigs_ne_nil (n : Nat) : natDigs n ≠ [] := by
  induction n using natDigs.induct with
  | case1 n h => simp [natDigs, h]
  | case2 n h ih => rw [natDigs]; simp [h]

theorem natDigs_digits (n : Nat) : ∀ c ∈ natDigs n, isDigitChar c = true := by
  induction n using natDigs.induct with
  | case1 n h =>
      intro c hc
      rw [natDigs] at hc
      simp [h] at hc
      subst hc
      exact isDigitChar_digitChar h
  | case2 n h ih =>
      intro c hc
      rw [natDigs] at hc
      simp [h] at hc
      rcases hc with hc | hc
      · exact ih c hc
      · subst hc
        exact isDigitChar_digitChar (Nat.mod_lt _ (by omega))

theorem digsVal_append_one (ds : List Char) (c : Char) :
    digsVal (ds ++ [c]) = 10 * digsVal ds + digitVal c := by
  simp [digsVal, List.foldl_append]
  omega

theorem digsVal_natDigs (n : Nat) : digsVal (natDigs n) = n := by
  induction n using natDigs.induct with
  | case1 n h =>
      rw [natDigs]
      simp [h, digsVal, digitVal_digitChar h]
  | case2 n h ih =>
      rw [natDigs]
      simp only [h, dite_false]
      rw [digsVal_append_one, ih, digitVal_digitChar (Nat.mod_lt _ (by omega))]
      omega

theorem span_digits (l rest : List Char) (hall : ∀ c ∈ l, isDigitChar c = true)
    (hrest : noLeadDigit rest = true) :
    (l ++ rest).takeWhile isDigitChar = l ∧ (l ++ rest).dropWhile isDigitChar = rest := by
  induction l with
  | nil =>
      cases rest with
      | nil => simp
      | cons c r =>
          simp [noLeadDigit] at hrest
          simp [List.takeWhile, List.dropWhile, hrest]
  | cons c l ih =>
      have hc : isDigitChar c = true := hall c (by simp)
      have ih' := ih (fun d hd => hall d (by simp [hd]))
      simp [List.takeWhile, List.dropWhile, hc, ih'.1, ih'.2]

theorem pNat_natDigs (n : Nat) (rest : List Char) (hrest : noLeadDigit rest = true) :
    pNat (natDigs n ++ rest) = some (n, rest) := by
  obtain ⟨h1, h2⟩ := span_digits (natDigs n) rest (natDigs_digits n) hrest
  simp [pNat, h1, h2, digsVal_natDigs, natDigs_ne_nil n]

theorem takeStr_closed (s rest : List Char) (hs : ∀ c ∈ s, c ≠ quoteChar) :
    takeStr (s ++ quoteChar :: rest) = some (s, rest) := by
  induction s with
  | nil => simp [takeStr]
  | cons c cs ih =>
      have hc : c ≠ quoteChar := hs c (by simp)
      simp only [List.cons_append, takeStr, hc, if_false, ite_false]
      rw [show cs.append (quoteChar :: rest) = cs ++ quoteChar :: rest from rfl,
        ih (fun d hd => hs d (by simp [hd]))]

/-! ## Lemmas: key sorting -/

theorem mem_insPair (p q : String × Jv) (l : List (String × Jv)) :
    q ∈ insPair p l ↔ q = p ∨ q ∈ l := by
  induction l with
  | nil => simp [insPair]
  | cons r rs ih =>
      simp only [insPair]
      split
      · simp [or_comm, or_assoc, or_left_comm]
      · simp [ih]
        tauto

theorem mem_sortPairs (q : String × Jv) (l : List (String × Jv)) :
    q ∈ sortPairs l ↔ q ∈ l := by
  induction l with
  | nil => simp [sortPairs]
  | cons p ps ih => simp [sortPairs, mem_insPair, ih]

theorem wMTail_insPair (p : String × Jv) (l : List (String × Jv)) :
    wMTail (insPair p l) = 1 + wVal p.2 + wMTail l := by
  induction l with
  | nil => simp [insPair, wMTail]
  | cons q qs ih =>
      simp only [insPair]
      split
      · simp [wMTail]
      · simp [wMTail, ih]
        omega

theorem wMTail_sortPairs (l : List (String × Jv)) :
    wMTail (sortPairs l) = wMTail l := by
  induction l with
  | nil => rfl
  | cons p ps ih => simp [sortPairs, wMTail_insPair, ih, wMTail]

/-- Keys strictly ascending (the well-formedness a Python dict's items
have after `sort_keys` ordering: no duplicate keys, already sorted). -/
def keysSorted : List (String × Jv) → Bool
  | [] => true
  | [_] => true
  | p :: q :: rest => decide (p.1 < q.1) && keysSorted (q :: rest)

theorem insPair_of_lt_head (p : String × Jv) (l : List (String × Jv))
    (h : ∀ q ∈ l.head?, p.1 < q.1) : insPair p l = p :: l := by
  cases l with
  | nil => rfl
  | cons q qs =>
      have : p.1 < q.1 := h q (by simp)
      simp [insPair, keyLe, le_of_lt this]

theorem sortPairs_of_sorted (l : List (String × Jv)) (h : keysSorted l = true) :
    sortPairs l = l := by
  induction l with
  | nil => rfl
  | cons p ps ih =>
      have hps : keysSorted ps = true := by
        cases ps with
        | nil => rfl
        | cons q qs => simp [keysSorted] at h; exact h.2
      rw [sortPairs, ih hps]
      apply insPair_of_lt_head
      intro q hq
      cases ps with
      | nil => simp at hq
      | cons r rs =>
          simp at hq
          subst hq
          have h1 : decide (p.1 < r.1) = true := by
            rw [keysSorted] at h
            exact (Bool.and_eq_true _ _ |>.mp h).1
          exact of_decide_eq_true h1

/-! ## Lemmas: serialization failure on non-finite floats -/

theorem wVal_pos (v : Jv) : 1 ≤ wVal v := by
  cases v <;> simp [wVal]

theorem wTail_pos (xs : List Jv) : 1 ≤ wTail xs := by
  cases xs <;> simp [wTail] <;> omega

theorem wMTail_pos (kvs : List (String × Jv)) : 1 ≤ wMTail kvs := by
  cases kvs <;> simp [wMTail] <;> omega

/-- `json.dumps(..., allow_nan=False)` raises on any value containing a
non-finite float. -/
theorem dump_of_nonFinite :
    ∀ f,
      (∀ v, wVal v ≤ f → hasNonFinite v = true → dumpVal v = none) ∧
      (∀ xs, wTail xs ≤ f → hasNFElems xs = true →
        dumpElems xs = none ∧ dumpTail xs = none) ∧
      (∀ kvs, wMTail kvs ≤ f → hasNFMembers kvs = true →
        dumpMembers kvs = none ∧ dumpMTail kvs = none) := by
  intro f
  induction f with
  | zero =>
      refine ⟨fun v hv => absurd hv (by have := wVal_pos v; omega),
        fun xs hxs => absurd hxs (by have := wTail_pos xs; omega),
        fun kvs hkvs => absurd hkvs (by have := wMTail_pos kvs; omega)⟩
  | succ f ih =>
      obtain ⟨ihv, ihe, ihm⟩ := ih
      refine ⟨?_, ?_, ?_⟩
      · intro v hw hnf
        cases v with
        | jnan => simp [dumpVal]
        | jinf => simp [dumpVal]
        | jninf => simp [dumpVal]
        | jarr xs =>
            simp only [hasNonFinite] at hnf
            simp only [wVal] at hw
            have := (ihe xs (by omega) hnf).1
            simp [dumpVal, this]
        | jobj kvs =>
            simp only [hasNonFinite] at hnf
            simp only [wVal] at hw
            have hsp : hasNFMembers (sortPairs kvs) = true := by
              -- a bad member of `kvs` is also a member of `sortPairs kvs`
              have mem_of : ∀ l : List (String × Jv), hasNFMembers l = true →
                  ∃ kv ∈ l, hasNonFinite kv.2 = true := by
                intro l
                induction l with
                | nil => simp [hasNFMembers]
                | cons p ps ihl =>
                    intro hl
                    rcases p with ⟨k, v⟩
                    simp only [hasNFMembers, Bool.or_eq_true] at hl
                    rcases hl with hl | hl
                    · exact ⟨(k, v), by simp, hl⟩
                    · obtain ⟨kv, hmem, hbad⟩ := ihl hl
                      exact ⟨kv, by simp [hmem], hbad⟩
              have of_mem : ∀ l : List (String × Jv),
                  (∃ kv ∈ l, hasNonFinite kv.2 = true) → hasNFMembers l = true := by
                intro l
                induction l with
                | nil => simp
                | cons p ps ihl =>
                    rintro ⟨kv, hmem, hbad⟩
                    rcases p with ⟨k, v⟩
                    simp only [List.mem_cons] at hmem
                    rcases hmem with rfl | hmem
                    · simp [hasNFMembers, hbad]
                    · simp [hasNFMembers, ihl ⟨kv, hmem, hbad⟩]
              obtain ⟨kv, hmem, hbad⟩ := mem_of kvs hnf
              exact of_mem _ ⟨kv, (mem_sortPairs kv kvs).mpr hmem, hbad⟩
            have hwm : wMTail (sortPairs kvs) ≤ f := by
              rw [wMTail_sortPairs]; omega
            have := (ihm (sortPairs kvs) hwm hsp).1
            simp [dumpVal, this]
        | jnull => simp [hasNonFinite] at hnf
        | jbool b => simp [hasNonFinite] at hnf
        | jint n => simp [hasNonFinite] at hnf
        | jstr s => simp [hasNonFinite] at hnf
      · intro xs hw hnf
        cases xs with
        | nil => simp [hasNFElems] at hnf
        | cons x xs =>
            simp only [hasNFElems, Bool.or_eq_true] at hnf
            simp only [wTail] at hw
            rcases hnf with hnf | hnf
            · have := ihv x (by omega) hnf
              constructor <;> simp [dumpElems, dumpTail, this]
            · have := (ihe xs (by omega) hnf).2
              constructor <;> simp [dumpElems, dumpTail, this] <;>
                cases dumpVal x <;> simp
      · intro kvs hw hnf
        cases kvs with
        | nil => simp [hasNFMembers] at hnf
        | cons kv kvs =>
            rcases kv with ⟨k, v⟩
            simp only [hasNFMembers, Bool.or_eq_true] at hnf
            simp only [wMTail] at hw
            have hw2 : 1 + wVal v + wMTail kvs ≤ f + 1 := by simpa using hw
            rcases hnf with hnf | hnf
            · have := ihv v (by omega) (by simpa using hnf)
              constructor <;> simp [dumpMembers, dumpMTail, this] <;>
                cases dumpKey k <;> simp
            · have := (ihm kvs (by omega) hnf).2
              constructor <;> simp [dumpMembers, dumpMTail, this] <;>
                cases dumpKey k <;> simp <;> cases dumpVal v <;> simp

/-! ## Lemmas: the parser inverts the serializer -/

theorem string_mk_data (s : String) : String.mk s.data = s := rfl

theorem strOk_ne_quote {c : Char} (h : strOk c = true) : c ≠ quoteChar := by
  simp [strOk] at h
  exact h.1.1.1

theorem dumpKey_inv {k : String} {ck : List Char} (h : dumpKey k = some ck) :
    ck = quoteChar :: k.data ++ [quoteChar] ∧ ∀ c ∈ k.data, c ≠ quoteChar := by
  simp only [dumpKey] at h
  split at h
  · rename_i hall
    simp only [Option.some_inj] at h
    refine ⟨h.symm, ?_⟩
    intro c hc
    exact strOk_ne_quote (by simpa using (List.all_eq_true.mp hall) c hc)
  · exact absurd h (by simp)

/-- The first character of any serialized value. -/
theorem dump_head {v : Jv} {out : List Char} (h : dumpVal v = some out) :
    ∃ c t, out = c :: t ∧
      (c = 'n' ∨ c = 't' ∨ c = 'f' ∨ c = quoteChar ∨ c = '-' ∨
        isDigitChar c = true ∨ c = '[' ∨ c = lbraceChar) := by
  cases v with
  | jnull => simp [dumpVal] at h; exact ⟨'n', _, h.symm, by simp⟩
  | jbool b =>
      cases b <;> simp [dumpVal] at h
      · exact ⟨'f', _, h.symm, by simp⟩
      · exact ⟨'t', _, h.symm, by simp⟩
  | jint n =>
      simp only [dumpVal, Option.some_inj] at h
      rw [intChars] at h
      split at h
      · exact ⟨'-', _, h.symm, by simp⟩
      · rcases hd : natDigs n.toNat with _ | ⟨c, t⟩
        · exact absurd hd (natDigs_ne_nil _)
        · refine ⟨c, t, by rw [← h, hd], ?_⟩
          have := natDigs_digits n.toNat c (by rw [hd]; simp)
          simp [this]
  | jnan => simp [dumpVal] at h
  | jinf => simp [dumpVal] at h
  | jninf => simp [dumpVal] at h
  | jstr s =>
      simp only [dumpVal] at h
      split at h
      · simp only [Option.some_inj] at h
        exact ⟨quoteChar, _, h.symm, by simp⟩
      · exact absurd h (by simp)
  | jarr xs =>
      simp only [dumpVal] at h
      rcases hde : dumpElems xs with _ | body <;> rw [hde] at h
      · exact absurd h (by simp)
      · simp only [Option.some_inj] at h
        exact ⟨'[', _, h.symm, by simp⟩
  | jobj kvs =>
      simp only [dumpVal] at h
      rcases hdm : dumpMembers (sortPairs kvs) with _ | body <;> rw [hdm] at h
      · exact absurd h (by simp)
      · simp only [Option.some_inj] at h
        exact ⟨lbraceChar, _, h.symm, by simp⟩

theorem dump_head_not_close {v : Jv} {out : List Char} (h : dumpVal v = some out) :
    ∃ c t, out = c :: t ∧ c ≠ ']' ∧ c ≠ rbraceChar ∧ (isDigitChar c = false → c ≠ '-' →
      (c = 'n' ∨ c = 't' ∨ c = 'f' ∨ c = quoteChar ∨ c = '[' ∨ c = lbraceChar)) := by
  obtain ⟨c, t, rfl, hc⟩ := dump_head h
  refine ⟨c, t, rfl, ?_, ?_, ?_⟩
  · rcases hc with rfl | rfl | rfl | rfl | rfl | hc | rfl | rfl <;> first
      | decide
      | (intro he; rw [he] at hc; revert hc; decide)
  · rcases hc with rfl | rfl | rfl | rfl | rfl | hc | rfl | rfl <;> first
      | decide
      | (intro he; rw [he] at hc; revert hc; decide)
  · intro h1 h2
    rcases hc with rfl | rfl | rfl | rfl | rfl | hc | rfl | rfl <;> simp_all

theorem noLead_dumpTail {xs : List Jv} {o : List Char} (h : dumpTail xs = some o)
    (r : List Char) : noLeadDigit (o ++ ']' :: r) = true := by
  cases xs with
  | nil => simp [dumpTail] at h; subst h; simp [noLeadDigit, isDigitChar]
  | cons x xs =>
      simp only [dumpTail] at h
      rcases h1 : dumpVal x with _ | cx <;> rw [h1] at h <;>
        rcases h2 : dumpTail xs with _ | ct <;> try rw [h2] at h
      all_goals simp_all
      subst h
      simp [noLeadDigit, isDigitChar]

theorem noLead_dumpMTail {kvs : List (String × Jv)} {o : List Char}
    (h : dumpMTail kvs = some o) (r : List Char) :
    noLeadDigit (o ++ rbraceChar :: r) = true := by
  cases kvs with
  | nil => simp [dumpMTail] at h; subst h; simp [noLeadDigit, isDigitChar, rbraceChar]
  | cons kv kvs =>
      rcases kv with ⟨k, v⟩
      simp only [dumpMTail] at h
      rcases h1 : dumpKey k with _ | ck <;> rw [h1] at h <;>
        rcases h2 : dumpVal v with _ | cv <;> try rw [h2] at h
      all_goals try rcases h3 : dumpMTail kvs with _ | ct <;> try rw [h3] at h
      all_goals simp_all
      subst h
      simp [noLeadDigit, isDigitChar]

/-! ## Small-step parsing lemmas for atoms -/

theorem pTok_starts (tok : List Char) (v : Jv) (rest : List Char) :
    pTok tok v (tok ++ rest) = some (v, rest) := by
  have hp : tok.isPrefixOf (tok ++ rest) = true := by
    rw [List.isPrefixOf_iff_prefix]
    exact List.prefix_append _ _
  simp [pTok, hp, List.drop_left]

theorem digit_not_special {x : Char} (hx : isDigitChar x = true) :
    x ≠ 'n' ∧ x ≠ 't' ∧ x ≠ 'f' ∧ x ≠ quoteChar ∧ x ≠ '-' := by
  refine ⟨?_, ?_, ?_, ?_, ?_⟩ <;> intro he <;> rw [he] at hx <;> revert hx <;> decide

theorem pVal_int (f : Nat) (n : Int) (rest : List Char) (hrest : noLeadDigit rest = true) :
    pVal (f + 1) (intChars n ++ rest) = some (.jint n, rest) := by
  rw [intChars]
  split
  · rename_i hn
    rw [List.cons_append]
    simp +decide only [pVal, if_true, if_false, List.append_eq]
    rw [show pNeg (natDigs n.natAbs ++ rest) = some (Jv.jint (-(n.natAbs : Int)), rest) by
      simp [pNeg, pNat_natDigs _ _ hrest]]
    have hna : -((n.natAbs : Int)) = n := by omega
    rw [hna]
  · rename_i hn
    rcases hd : natDigs n.toNat with _ | ⟨c, t⟩
    · exact absurd hd (natDigs_ne_nil _)
    have hdig : isDigitChar c = true := natDigs_digits n.toNat c (by rw [hd]; simp)
    obtain ⟨h1, h2, h3, h4, h5⟩ := digit_not_special hdig
    have hsplit : natDigs n.toNat ++ rest = c :: (t ++ rest) := by rw [hd]; rfl
    simp only [pVal]
    rw [if_neg h1, if_neg h2, if_neg h3, if_neg h4, if_neg h5, if_pos hdig]
    simp only [List.append_eq]
    rw [← hsplit]
    rw [show pPos (natDigs n.toNat ++ rest) = some (Jv.jint ((n.toNat : Int)), rest) by
      simp [pPos, pNat_natDigs _ _ hrest]]
    have hnn : ((n.toNat : Int)) = n := Int.toNat_of_nonneg (by omega)
    rw [hnn]

theorem pVal_str (f : Nat) (s : String) (rest : List Char) (hok : s.data.all strOk = true) :
    pVal (f + 1) ((quoteChar :: s.data ++ [quoteChar]) ++ rest) = some (.jstr s, rest) := by
  rw [List.cons_append]
  simp +decide only [pVal, if_true, if_false, List.append_eq]
  have hclean : ∀ c ∈ s.data, c ≠ quoteChar := by
    intro c hc
    exact strOk_ne_quote (by simpa using (List.all_eq_true.mp hok) c hc)
  rw [show (s.data ++ [quoteChar]) ++ rest = s.data ++ quoteChar :: rest by simp]
  simp [pStrBody, takeStr_closed s.data rest hclean, string_mk_data]

/-! ## The parser inverts the serializer -/

theorem rt_main : ∀ f,
    (∀ v out rest, dumpVal v = some out → wVal v ≤ f → noLeadDigit rest = true →
      pVal f (out ++ rest) = some (normVal v, rest)) ∧
    (∀ xs out rest, dumpTail xs = some out → wTail xs ≤ f →
      pElems f (out ++ ']' :: rest) = some (normElems xs, rest)) ∧
    (∀ k v ck cv rest, dumpKey k = some ck → dumpVal v = some cv → 1 + wVal v ≤ f →
      noLeadDigit rest = true →
      pMember f (ck ++ ':' :: ' ' :: cv ++ rest) = some ((k, normVal v), rest)) ∧
    (∀ kvs out rest, dumpMTail kvs = some out → wMTail kvs ≤ f →
      pMembers f (out ++ rbraceChar :: rest) = some (normMembers kvs, rest)) := by
  intro f
  induction f with
  | zero =>
      refine ⟨?_, ?_, ?_, ?_⟩
      · intro v _ _ _ hw _
        exact absurd hw (by have := wVal_pos v; omega)
      · intro xs _ _ _ hw
        exact absurd hw (by have := wTail_pos xs; omega)
      · intro k v _ _ _ _ _ hw _
        exact absurd hw (by have := wVal_pos v; omega)
      · intro kvs _ _ _ hw
        exact absurd hw (by have := wMTail_pos kvs; omega)
  | succ f ih =>
      obtain ⟨ihv, ihe, ihkv, ihm⟩ := ih
      refine ⟨?_, ?_, ?_, ?_⟩
      · -- values
        intro v out rest hd hw hnl
        cases v with
        | jnull =>
            simp only [dumpVal, Option.some_inj] at hd
            subst hd
            rw [show ("null".data) ++ rest = 'n' :: (("ull".data) ++ rest) from rfl]
            simp +decide only [pVal, if_true, if_false, List.append_eq]
            rw [pTok_starts]
            simp [normVal]
        | jbool b =>
            cases b with
            | true =>
                simp only [dumpVal, Option.some_inj] at hd
                subst hd
                rw [show ("true".data) ++ rest = 't' :: (("rue".data) ++ rest) from rfl]
                simp +decide only [pVal, if_true, if_false, List.append_eq]
                rw [pTok_starts]
                simp [normVal]
            | false =>
                simp only [dumpVal, Option.some_inj] at hd
                subst hd
                rw [show ("false".data) ++ rest = 'f' :: (("alse".data) ++ rest) from rfl]
                simp +decide only [pVal, if_true, if_false, List.append_eq]
                rw [pTok_starts]
                simp [normVal]
        | jint n =>
            simp only [dumpVal, Option.some_inj] at hd
            subst hd
            rw [pVal_int f n rest hnl]
            simp [normVal]
        | jnan => simp [dumpVal] at hd
        | jinf => simp [dumpVal] at hd
        | jninf => simp [dumpVal] at hd
        | jstr s =>
            simp only [dumpVal] at hd
            split at hd
            · rename_i hok
              simp only [Option.some_inj] at hd
              subst hd
              rw [pVal_str f s rest hok]
              simp [normVal]
            · exact absurd hd (by simp)
        | jarr xs =>
            simp only [dumpVal] at hd
            rcases hde : dumpElems xs with _ | body <;> rw [hde] at hd
            · exact absurd hd (by simp)
            simp only [Option.some_inj] at hd
            subst hd
            cases xs with
            | nil =>
                have hbody : body = [] := by
                  simp [dumpElems] at hde
                  first
                  | exact hde
                  | exact hde.symm
                subst hbody
                rw [show ('[' :: ([] : List Char) ++ [']']) ++ rest = '[' :: (']' :: rest)
                  from rfl]
                simp +decide only [pVal, if_true, if_false, List.append_eq]
                simp [pArrBody, normVal, normElems]
            | cons x xs =>
                simp only [dumpElems] at hde
                rcases h1 : dumpVal x with _ | cx <;> rw [h1] at hde
                · simp at hde
                rcases h2 : dumpTail xs with _ | ct <;> rw [h2] at hde
                · simp at hde
                simp only [Option.some_inj] at hde
                subst hde
                simp only [wVal, wTail] at hw
                have hwx : wVal x ≤ f := by omega
                have hwt : wTail xs ≤ f := by omega
                obtain ⟨c2, t2, hcx, hne1, hne2, _⟩ := dump_head_not_close h1
                have hshape : ('[' :: (cx ++ ct) ++ [']']) ++ rest
                    = '[' :: (cx ++ (ct ++ ']' :: rest)) := by simp
                rw [hshape]
                simp +decide only [pVal, if_true, if_false, List.append_eq]
                rw [hcx, List.cons_append]
                simp only [pArrBody]
                rw [if_neg hne1]
                rw [← List.cons_append, ← hcx]
                rw [ihv x cx (ct ++ ']' :: rest) h1 hwx (noLead_dumpTail h2 rest)]
                simp [ihe xs ct rest h2 hwt, normVal, normElems]
        | jobj kvs =>
            simp only [dumpVal] at hd
            rcases hdm : dumpMembers (sortPairs kvs) with _ | body <;> rw [hdm] at hd
            · exact absurd hd (by simp)
            simp only [Option.some_inj] at hd
            subst hd
            rcases hsp : sortPairs kvs with _ | ⟨⟨k1, v1⟩, kvs1⟩ <;> rw [hsp] at hdm
            · have hbody : body = [] := by
                simp [dumpMembers] at hdm
                first
                | exact hdm
                | exact hdm.symm
              subst hbody
              rw [show (lbraceChar :: ([] : List Char) ++ [rbraceChar]) ++ rest
                  = lbraceChar :: (rbraceChar :: rest) from rfl]
              simp +decide only [pVal, if_true, if_false, List.append_eq]
              simp [pObjBody, normVal, hsp, normMembers]
            · simp only [dumpMembers] at hdm
              rcases hk : dumpKey k1 with _ | ck <;> rw [hk] at hdm
              · simp at hdm
              rcases hv : dumpVal v1 with _ | cv <;> rw [hv] at hdm
              · simp at hdm
              rcases hmt : dumpMTail kvs1 with _ | mt <;> rw [hmt] at hdm
              · simp at hdm
              simp only [Option.some_inj] at hdm
              subst hdm
              simp only [wVal] at hw
              have hwsort := wMTail_sortPairs kvs
              rw [hsp] at hwsort
              simp only [wMTail] at hwsort
              have hwsort0 : 1 + wVal v1 + wMTail kvs1 = wMTail kvs := by
                simpa using hwsort
              have hw1 : 1 + wVal v1 ≤ f := by omega
              have hw2 : wMTail kvs1 ≤ f := by omega
              obtain ⟨hckEq, hclean⟩ := dumpKey_inv hk
              have hshape : (lbraceChar :: (ck ++ ':' :: ' ' :: cv ++ mt) ++ [rbraceChar]) ++ rest
                  = lbraceChar :: (ck ++ ':' :: ' ' :: cv ++ (mt ++ rbraceChar :: rest)) := by
                simp
              rw [hshape]
              simp +decide only [pVal, if_true, if_false, List.append_eq]
              simp +decide only [pObjBody, hckEq, List.cons_append, List.append_assoc,
                List.singleton_append, if_true, if_false]
              have hmem := ihkv k1 v1 ck cv (mt ++ rbraceChar :: rest) hk hv hw1
                (noLead_dumpMTail hmt rest)
              rw [hckEq] at hmem
              simp only [List.cons_append, List.append_assoc, List.singleton_append] at hmem
              rw [hmem]
              simp [ihm kvs1 mt rest hmt hw2, normVal, normMembers, hsp]
      · -- array tails
        intro xs out rest hd hw
        cases xs with
        | nil =>
            have hout : out = [] := by simpa [dumpTail] using hd
            subst hout
            simp +decide only [List.nil_append, pElems, if_true, if_false]
            simp [normElems]
        | cons x xs =>
            simp only [dumpTail] at hd
            rcases h1 : dumpVal x with _ | cx <;> rw [h1] at hd
            · simp at hd
            rcases h2 : dumpTail xs with _ | ct <;> rw [h2] at hd
            · simp at hd
            simp only [Option.some_inj] at hd
            subst hd
            simp only [wTail] at hw
            have hwx : wVal x ≤ f := by omega
            have hwt : wTail xs ≤ f := by omega
            rw [show (',' :: ' ' :: cx ++ ct) ++ ']' :: rest
                = ',' :: (' ' :: (cx ++ (ct ++ ']' :: rest))) by simp]
            simp +decide only [pElems, if_true, if_false, List.append_eq]
            simp only [pAfterComma]
            rw [ihv x cx (ct ++ ']' :: rest) h1 hwx (noLead_dumpTail h2 rest)]
            simp [ihe xs ct rest h2 hwt, normElems]
      · -- one object member
        intro k v ck cv rest hk hv hw hnl
        have hwv : wVal v ≤ f := by omega
        obtain ⟨hckEq, hclean⟩ := dumpKey_inv hk
        have htake := takeStr_closed k.data (':' :: ' ' :: (cv ++ rest)) hclean
        simp +decide [pMember, pMemberBody, hckEq, htake,
          ihv v cv rest hv hwv hnl, string_mk_data]
      · -- object member tails
        intro kvs out rest hd hw
        cases kvs with
        | nil =>
            have hout : out = [] := by simpa [dumpMTail] using hd
            subst hout
            simp +decide only [List.nil_append, pMembers, if_true, if_false]
            simp [normMembers]
        | cons kv kvs1 =>
            rcases kv with ⟨k1, v1⟩
            simp only [dumpMTail] at hd
            rcases hk : dumpKey k1 with _ | ck <;> rw [hk] at hd
            · simp at hd
            rcases hv : dumpVal v1 with _ | cv <;> rw [hv] at hd
            · simp at hd
            rcases hmt : dumpMTail kvs1 with _ | mt <;> rw [hmt] at hd
            · simp at hd
            simp only [Option.some_inj] at hd
            subst hd
            simp only [wMTail] at hw
            have hw0 : 1 + wVal v1 + wMTail kvs1 ≤ f + 1 := by simpa using hw
            have hwp := wMTail_pos kvs1
            have hw1 : 1 + wVal v1 ≤ f := by omega
            have hw2 : wMTail kvs1 ≤ f := by omega
            rw [show (',' :: ' ' :: ck ++ ':' :: ' ' :: cv ++ mt) ++ rbraceChar :: rest
                = ',' :: (' ' :: (ck ++ ':' :: ' ' :: cv ++ (mt ++ rbraceChar :: rest))) by simp]
            simp +decide only [pMembers, if_true, if_false, List.append_eq]
            simp only [pAfterComma]
            rw [ihkv k1 v1 ck cv (mt ++ rbraceChar :: rest) hk hv hw1
              (noLead_dumpMTail hmt rest)]
            simp [ihm kvs1 mt rest hmt hw2, normMembers]

/-! ## Fuel bound: the fuel `loads` uses suffices on serializer output -/

theorem natDigs_length_pos (n : Nat) : 1 ≤ (natDigs n).length := by
  rcases h : natDigs n with _ | ⟨c, t⟩
  · exact absurd h (natDigs_ne_nil n)
  · simp

theorem intChars_length_pos (n : Int) : 1 ≤ (intChars n).length := by
  rw [intChars]
  split
  · simp
  · exact natDigs_length_pos _

theorem fuel_bound : ∀ f,
    (∀ v out, wVal v ≤ f → dumpVal v = some out → wVal v + 1 ≤ 2 * out.length) ∧
    (∀ xs out, wTail xs ≤ f → dumpTail xs = some out → wTail xs ≤ 2 * out.length + 1) ∧
    (∀ kvs out, wMTail kvs ≤ f → dumpMTail kvs = some out →
      wMTail kvs ≤ 2 * out.length + 1) := by
  intro f
  induction f with
  | zero =>
      refine ⟨?_, ?_, ?_⟩
      · intro v _ hw _
        exact absurd hw (by have := wVal_pos v; omega)
      · intro xs _ hw
        exact absurd hw (by have := wTail_pos xs; omega)
      · intro kvs _ hw
        exact absurd hw (by have := wMTail_pos kvs; omega)
  | succ f ih =>
      obtain ⟨ihv, ihe, ihm⟩ := ih
      refine ⟨?_, ?_, ?_⟩
      · intro v out hw hd
        cases v with
        | jnull =>
            simp only [dumpVal, Option.some_inj] at hd
            subst hd
            simp [wVal]
        | jbool b =>
            cases b <;> simp only [dumpVal, Option.some_inj] at hd <;> subst hd <;>
              simp [wVal]
        | jint n =>
            simp only [dumpVal, Option.some_inj] at hd
            subst hd
            have := intChars_length_pos n
            simp [wVal]
            omega
        | jnan => simp [dumpVal] at hd
        | jinf => simp [dumpVal] at hd
        | jninf => simp [dumpVal] at hd
        | jstr s =>
            simp only [dumpVal] at hd
            split at hd
            · simp only [Option.some_inj] at hd
              subst hd
              simp [wVal]
              all_goals omega
            · exact absurd hd (by simp)
        | jarr xs =>
            simp only [dumpVal] at hd
            rcases hde : dumpElems xs with _ | body <;> rw [hde] at hd
            · exact absurd hd (by simp)
            simp only [Option.some_inj] at hd
            subst hd
            simp only [wVal] at hw ⊢
            cases xs with
            | nil =>
                have hbody : body = [] := by
                  simp [dumpElems] at hde
                  first
                  | exact hde
                  | exact hde.symm
                subst hbody
                simp [wTail]
            | cons x xs =>
                simp only [dumpElems] at hde
                rcases h1 : dumpVal x with _ | cx <;> rw [h1] at hde
                · simp at hde
                rcases h2 : dumpTail xs with _ | ct <;> rw [h2] at hde
                · simp at hde
                simp only [Option.some_inj] at hde
                subst hde
                simp only [wTail] at hw ⊢
                have hbx := ihv x cx (by omega) h1
                have hbt := ihe xs ct (by omega) h2
                simp only [List.length_append, List.length_cons]
                omega
        | jobj kvs =>
            simp only [dumpVal] at hd
            rcases hdm : dumpMembers (sortPairs kvs) with _ | body <;> rw [hdm] at hd
            · exact absurd hd (by simp)
            simp only [Option.some_inj] at hd
            subst hd
            simp only [wVal] at hw ⊢
            have hwsort := wMTail_sortPairs kvs
            rcases hsp : sortPairs kvs with _ | ⟨⟨k1, v1⟩, kvs1⟩ <;> rw [hsp] at hdm hwsort
            · have hbody : body = [] := by
                simp [dumpMembers] at hdm
                first
                | exact hdm
                | exact hdm.symm
              subst hbody
              simp only [wMTail] at hwsort
              simp
              omega
            · simp only [dumpMembers] at hdm
              rcases hk : dumpKey k1 with _ | ck <;> rw [hk] at hdm
              · simp at hdm
              rcases hv : dumpVal v1 with _ | cv <;> rw [hv] at hdm
              · simp at hdm
              rcases hmt : dumpMTail kvs1 with _ | mt <;> rw [hmt] at hdm
              · simp at hdm
              simp only [Option.some_inj] at hdm
              subst hdm
              simp only [wMTail] at hwsort
              have hws : 1 + wVal v1 + wMTail kvs1 = wMTail kvs := by simpa using hwsort
              have hbv := ihv v1 cv (by omega) hv
              have hbm := ihm kvs1 mt (by omega) hmt
              simp only [List.length_append, List.length_cons]
              omega
      · intro xs out hw hd
        cases xs with
        | nil =>
            have hout : out = [] := by simpa [dumpTail] using hd
            subst hout
            simp [wTail]
        | cons x xs =>
            simp only [dumpTail] at hd
            rcases h1 : dumpVal x with _ | cx <;> rw [h1] at hd
            · simp at hd
            rcases h2 : dumpTail xs with _ | ct <;> rw [h2] at hd
            · simp at hd
            simp only [Option.some_inj] at hd
            subst hd
            simp only [wTail] at hw ⊢
            have hbx := ihv x cx (by omega) h1
            have hbt := ihe xs ct (by omega) h2
            simp only [List.length_append, List.length_cons]
            omega
      · intro kvs out hw hd
        cases kvs with
        | nil =>
            have hout : out = [] := by simpa [dumpMTail] using hd
            subst hout
            simp [wMTail]
        | cons kv kvs1 =>
            rcases kv with ⟨k1, v1⟩
            simp only [dumpMTail] at hd
            rcases hk : dumpKey k1 with _ | ck <;> rw [hk] at hd
            · simp at hd
            rcases hv : dumpVal v1 with _ | cv <;> rw [hv] at hd
            · simp at hd
            rcases hmt : dumpMTail kvs1 with _ | mt <;> rw [hmt] at hd
            · simp at hd
            simp only [Option.some_inj] at hd
            subst hd
            simp only [wMTail] at hw ⊢
            have hw0 : 1 + wVal v1 + wMTail kvs1 ≤ f + 1 := by simpa using hw
            have hbv := ihv v1 cv (by omega) hv
            have hbm := ihm kvs1 mt (by omega) hmt
            simp only [List.length_append, List.length_cons]
            all_goals omega

/-! ## Canonically key-sorted values -/

mutual

/-- Every object in the value has its members strictly sorted by key
(as any value parsed back from `sort_keys=True` output does). -/
def canonVal : Jv → Bool
  | .jarr xs => canonElems xs
  | .jobj kvs => keysSorted kvs && canonMembers kvs
  | _ => true

def canonElems : List Jv → Bool
  | [] => true
  | x :: xs => canonVal x && canonElems xs

def canonMembers : List (String × Jv) → Bool
  | [] => true
  | kv :: kvs => canonVal kv.2 && canonMembers kvs

end

theorem norm_canon : ∀ f,
    (∀ v, wVal v ≤ f → canonVal v = true → normVal v = v) ∧
    (∀ xs, wTail xs ≤ f → canonElems xs = true → normElems xs = xs) ∧
    (∀ kvs, wMTail kvs ≤ f → canonMembers kvs = true → normMembers kvs = kvs) := by
  intro f
  induction f with
  | zero =>
      refine ⟨?_, ?_, ?_⟩
      · intro v hw _
        exact absurd hw (by have := wVal_pos v; omega)
      · intro xs hw _
        exact absurd hw (by have := wTail_pos xs; omega)
      · intro kvs hw _
        exact absurd hw (by have := wMTail_pos kvs; omega)
  | succ f ih =>
      obtain ⟨ihv, ihe, ihm⟩ := ih
      refine ⟨?_, ?_, ?_⟩
      · intro v hw hc
        cases v with
        | jarr xs =>
            simp only [canonVal] at hc
            simp only [wVal] at hw
            simp only [normVal]
            rw [ihe xs (by omega) hc]
        | jobj kvs =>
            simp only [canonVal, Bool.and_eq_true] at hc
            simp only [wVal] at hw
            simp only [normVal]
            rw [sortPairs_of_sorted kvs hc.1, ihm kvs (by omega) hc.2]
        | jnull => simp [normVal]
        | jbool b => simp [normVal]
        | jint n => simp [normVal]
        | jnan => simp [normVal]
        | jinf => simp [normVal]
        | jninf => simp [normVal]
        | jstr s => simp [normVal]
      · intro xs hw hc
        cases xs with
        | nil => simp [normElems]
        | cons x xs =>
            simp only [canonElems, Bool.and_eq_true] at hc
            simp only [wTail] at hw
            simp only [normElems]
            rw [ihv x (by omega) hc.1, ihe xs (by omega) hc.2]
      · intro kvs hw hc
        cases kvs with
        | nil => simp [normMembers]
        | cons kv kvs1 =>
            rcases kv with ⟨k1, v1⟩
            simp only [canonMembers, Bool.and_eq_true] at hc
            simp only [wMTail] at hw
            have hw0 : 1 + wVal v1 + wMTail kvs1 ≤ f + 1 := by simpa using hw
            have hc1 : canonVal v1 = true := by simpa using hc.1
            simp only [normMembers]
            rw [ihv v1 (by omega) hc1, ihm kvs1 (by omega) hc.2]

/-! ## `loads` / `dumps` interface theorems -/

/-- A record containing a non-finite float fails to serialize:
`json.dumps(record, allow_nan=False)` raises `ValueError`. -/
theorem dumps_nonfinite {v : Jv} (h : hasNonFinite v = true) : dumps v = none := by
  have := ((dump_of_nonFinite (wVal v)).1 v le_rfl h)
  simp [dumps, this]

/-- Serializer output is never the empty line. -/
theorem dumps_ne_empty {v : Jv} {s : String} (h : dumps v = some s) : s.data ≠ [] := by
  simp only [dumps, Option.map_eq_some'] at h
  obtain ⟨out, hout, rfl⟩ := h
  obtain ⟨c, t, rfl, _⟩ := dump_head hout
  simp

/-- Parsing a serialized value yields the value with all its objects
key-sorted. -/
theorem loads_dumps {v : Jv} {s : String} (h : dumps v = some s) :
    loads s = some (normVal v) := by
  simp only [dumps, Option.map_eq_some'] at h
  obtain ⟨out, hout, rfl⟩ := h
  have hfuel : wVal v ≤ 2 * out.length + 2 := by
    have := (fuel_bound (wVal v)).1 v out le_rfl hout
    omega
  have hp := (rt_main (2 * out.length + 2)).1 v out [] hout hfuel (by rfl)
  simp only [List.append_nil] at hp
  simp [loads, hp]

/-- Round trip on canonically key-sorted records (a Python dict written
with `sort_keys=True` compares equal to the parsed-back dict; in the
embedding, equality holds on the nose for key-sorted objects). -/
theorem loads_dumps_canon {v : Jv} {s : String} (hc : canonVal v = true)
    (h : dumps v = some s) : loads s = some v := by
  rw [loads_dumps h, (norm_canon (wVal v)).1 v le_rfl hc]

/-! ## `Seekable`: the line-indexed file

A faithful state model of `datastore_v2.Seekable`: the file's
characters, the file cursor, and the in-memory line-length index
(`line_lengths`, `cumulative_lengths`, `total_length`).  The file is
opened in text mode; `'a+'` mode means every write lands at the end of
the file and leaves the cursor there. -/

structure Seekable where
  content : List Char
  pos : Nat
  read_only : Bool
  line_lengths : List Nat
  cumulative_lengths : List Nat
  total_length : Nat
deriving DecidableEq

namespace Seekable

/-- `_offset_until(line_index)`: `cumulative_lengths[line_index - 1]`
when that index is in range, else `0`. -/
def offsetUntil (s : Seekable) (lineIndex : Int) : Nat :=
  let e := lineIndex - 1
  if 0 ≤ e ∧ e < (s.cumulative_lengths.length : Int) then s.cumulative_lengths.getD e.toNat 0
  else 0

/-- `_line_start_offset(n) = _offset_until(n - 1)`. -/
def lineStartOffset (s : Seekable) (n : Int) : Nat := s.offsetUntil (n - 1)

/-- `seek_line_start(n)`. -/
def seekLineStart (s : Seekable) (n : Int) : Seekable :=
  { s with pos := s.lineStartOffset n }

/-- The characters `file.readline()` consumes from a given suffix:
everything up to and including the first newline. -/
def takeLine : List Char → List Char
  | [] => []
  | c :: cs => if c = '\n' then [c] else c :: takeLine cs

/-- `str.rstrip('\r\n')`. -/
def rstripNl (l : List Char) : List Char :=
  (l.reverse.dropWhile (fun c => c = '\n' || c = '\r')).reverse

/-- `readline()`: read from the cursor to the end of the physical line,
decode, strip the trailing newline, and advance the cursor. -/
def readline (s : Seekable) : String × Seekable :=
  let raw := takeLine (s.content.drop s.pos)
  (String.mk (rstripNl raw), { s with pos := s.pos + raw.length })

/-- `writeline(contents)`: refuse when read-only (`RuntimeError`);
`contents[-1]` raises `IndexError` on the empty string (modelled as
`none`); otherwise normalize the trailing newline, append at end of
file, and extend the length index. -/
def writeline (s : Seekable) (contents : String) : Option Seekable :=
  if s.read_only then none
  else
    match contents.data.getLast? with
    | none => none
    | some last =>
        let line := if last = '\n' then contents.data else contents.data ++ ['\n']
        some { s with
          content := s.content ++ line
          pos := s.content.length + line.length
          line_lengths := s.line_lengths ++ [line.length]
          cumulative_lengths := s.cumulative_lengths ++ [s.total_length + line.length]
          total_length := s.total_length + line.length }

/-- `truncate_until_end(line_number)`: drop the index entries past
`line_number`, seek to the new end, and truncate the file there. -/
def truncateUntilEnd (s : Seekable) (n : Nat) : Seekable :=
  let cl := s.cumulative_lengths.take n
  let tl := cl.getLastD 0
  { content := s.content.take tl
    pos := tl
    read_only := s.read_only
    line_lengths := s.line_lengths.take n
    cumulative_lengths := cl
    total_length := tl }

/-- The loop inside `read_from`: `readline()` until an empty result. -/
def readLinesFrom (cs : List Char) : List String :=
  if h : cs = [] then []
  else
    let raw := takeLine cs
    let stripped := rstripNl raw
    if stripped.length = 0 then []
    else String.mk stripped :: readLinesFrom (cs.drop raw.length)
termination_by cs.length
decreasing_by
  simp only [List.length_drop]
  have hp : 1 ≤ (takeLine cs).length := by
    cases cs with
    | nil => simp at h
    | cons a as =>
        simp only [takeLine]
        split <;> simp
  have hc : 1 ≤ cs.length := by
    cases cs with
    | nil => simp at h
    | cons a as => simp
  omega

/-- `read_from(n)`: save the cursor, seek to line `n`, read lines until
an empty result, restore the cursor; the net effect is the returned
line list. -/
def readFrom (s : Seekable) (n : Int) : List String :=
  readLinesFrom (s.content.drop (s.lineStartOffset n))

/-- `update_line(n, contents)`: read the tail from line `n`, truncate
to line `n - 1`, write the new content, then re-append the remaining
lines.  An exception (`Except.error`) carries the state at the point
the exception is raised. -/
def writeAllLines (s : Seekable) : List String → Except Seekable Seekable
  | [] => .ok s
  | l :: ls =>
      match s.writeline l with
      | none => .error s
      | some s' => writeAllLines s' ls

def updateLine (s : Seekable) (n : Nat) (contents : String) : Except Seekable Seekable :=
  let lines := s.readFrom (n : Int)
  let s1 := s.truncateUntilEnd (n - 1)
  match s1.writeline contents with
  | none => .error s1
  | some s2 => writeAllLines s2 lines.tail

/-- Seek to line `n` and read it (the access pattern behind
`read_line_at`, e.g. `CatalogMetadata` reading line 1). -/
def readLineAt (s : Seekable) (n : Nat) : String :=
  ((s.seekLineStart (n : Int)).readline).1

end Seekable

/-! ## Well-formedness of a `Seekable` holding a list of lines -/

/-- The bytes of one stored line. -/
def lineChars (l : String) : List Char := l.data ++ ['\n']

def mkContent (lines : List String) : List Char := (lines.map lineChars).flatten

def lineLen (l : String) : Nat := l.length + 1

def sumLen (lines : List String) : Nat := (lines.map lineLen).sum

/-- Running cumulative sums starting from `acc`. -/
def cumulAux (acc : Nat) : List Nat → List Nat
  | [] => []
  | x :: xs => (acc + x) :: cumulAux (acc + x) xs

/-- A line free of newline and carriage-return characters. -/
def cleanLine (l : String) : Bool := l.data.all (fun c => c != '\n' && c != '\r')

/-- The `Seekable` invariant: the file holds exactly `lines`, each
terminated by a newline, and the in-memory index matches
(`cumulative_lengths[i] == sum(line_lengths[0..=i])`, `total_length`
equal to the file's byte length). -/
structure SeekableWf (lines : List String) (s : Seekable) : Prop where
  content_eq : s.content = mkContent lines
  ll_eq : s.line_lengths = lines.map lineLen
  cl_eq : s.cumulative_lengths = cumulAux 0 (lines.map lineLen)
  tl_eq : s.total_length = sumLen lines
  lines_clean : ∀ l ∈ lines, cleanLine l = true

theorem mkContent_nil : mkContent [] = [] := rfl

theorem mkContent_cons (l : String) (ls : List String) :
    mkContent (l :: ls) = lineChars l ++ mkContent ls := by
  simp only [mkContent, List.map_cons, List.flatten_cons]

theorem mkContent_append (a b : List String) :
    mkContent (a ++ b) = mkContent a ++ mkContent b := by
  simp only [mkContent, List.map_append, List.flatten_append]

theorem lineChars_length (l : String) : (lineChars l).length = lineLen l := by
  simp only [lineChars, lineLen, List.length_append, List.length_cons, List.length_nil]
  rfl

theorem mkContent_length (ls : List String) : (mkContent ls).length = sumLen ls := by
  induction ls with
  | nil => rfl
  | cons l ls ih =>
      rw [mkContent_cons]
      simp only [List.length_append, lineChars_length, ih]
      simp [sumLen]

theorem sumLen_cons (l : String) (ls : List String) :
    sumLen (l :: ls) = lineLen l + sumLen ls := by
  simp [sumLen]

theorem sumLen_append (a b : List String) : sumLen (a ++ b) = sumLen a + sumLen b := by
  simp [sumLen]

theorem cumulAux_length (acc : Nat) (ls : List Nat) :
    (cumulAux acc ls).length = ls.length := by
  induction ls generalizing acc with
  | nil => rfl
  | cons x xs ih => simp [cumulAux, ih]

theorem cumulAux_getD (ls : List Nat) :
    ∀ acc j, j < ls.length → (cumulAux acc ls).getD j 0 = acc + (ls.take (j + 1)).sum := by
  induction ls with
  | nil => intro acc j h; simp at h
  | cons x xs ih =>
      intro acc j h
      cases j with
      | zero => simp [cumulAux]
      | succ j =>
          simp only [cumulAux, List.getD_cons_succ]
          rw [ih (acc + x) j (by simpa using h)]
          simp [List.take_succ_cons]
          omega

theorem cumulAux_take (ls : List Nat) :
    ∀ acc n, (cumulAux acc ls).take n = cumulAux acc (ls.take n) := by
  induction ls with
  | nil => intro acc n; simp [cumulAux]
  | cons x xs ih =>
      intro acc n
      cases n with
      | zero => simp [cumulAux]
      | succ n => simp [cumulAux, List.take_succ_cons, ih]

theorem cumulAux_getLastD (ls : List Nat) :
    ∀ acc d, (cumulAux acc ls).getLastD d = if ls.length = 0 then d else acc + ls.sum := by
  induction ls with
  | nil => intro acc d; simp [cumulAux]
  | cons x xs ih =>
      intro acc d
      simp only [cumulAux]
      rw [List.getLastD_cons, ih (acc + x) (acc + x)]
      cases xs with
      | nil => simp
      | cons y ys =>
          simp
          omega

theorem cumulAux_append_one (ls : List Nat) :
    ∀ acc x, cumulAux acc (ls ++ [x]) = cumulAux acc ls ++ [acc + ls.sum + x] := by
  induction ls with
  | nil => intro acc x; simp [cumulAux]
  | cons y ys ih =>
      intro acc x
      simp only [List.cons_append, cumulAux]
      simp only [List.append_eq]
      rw [ih]
      simp only [List.sum_cons]
      rw [show acc + y + ys.sum + x = acc + (y + ys.sum) + x by omega]

theorem takeLine_nil : Seekable.takeLine [] = [] := rfl

theorem takeLine_line (d : List Char) (rest : List Char) (hd : ∀ c ∈ d, c ≠ '\n') :
    Seekable.takeLine (d ++ '\n' :: rest) = d ++ ['\n'] := by
  induction d with
  | nil => simp [Seekable.takeLine]
  | cons c cs ih =>
      have hc : c ≠ '\n' := hd c (by simp)
      simp only [List.cons_append, Seekable.takeLine, hc, if_false, ite_false,
        List.append_eq]
      rw [ih (fun x hx => hd x (by simp [hx]))]

theorem rstripNl_line (d : List Char) (hd : ∀ c ∈ d, c ≠ '\n' ∧ c ≠ '\r') :
    Seekable.rstripNl (d ++ ['\n']) = d := by
  have hself : List.dropWhile (fun c => c = '\n' || c = '\r') d.reverse = d.reverse := by
    cases hrev : d.reverse with
    | nil => rfl
    | cons a as =>
        rw [List.dropWhile_cons, if_neg]
        have ha : a ∈ d := List.mem_reverse.mp (by rw [hrev]; simp)
        have := hd a ha
        simp [this.1, this.2]
  simp only [Seekable.rstripNl]
  rw [show (d ++ ['\n']).reverse = '\n' :: d.reverse by simp]
  rw [List.dropWhile_cons, if_pos (by simp)]
  rw [hself, List.reverse_reverse]

theorem cleanLine_chars {l : String} (h : cleanLine l = true) :
    ∀ c ∈ l.data, c ≠ '\n' ∧ c ≠ '\r' := by
  intro c hc
  have := (List.all_eq_true.mp h) c hc
  simp at this
  exact this

theorem drop_append_len {α : Type} (a b : List α) (n : Nat) :
    (a ++ b).drop (a.length + n) = b.drop n := by
  induction a with
  | nil => simp
  | cons x xs ih =>
      rw [List.cons_append, List.length_cons,
        show xs.length + 1 + n = (xs.length + n) + 1 by omega, List.drop_succ_cons, ih]

theorem drop_mkContent (lines : List String) (j : Nat) :
    (mkContent lines).drop (sumLen (lines.take j)) = mkContent (lines.drop j) := by
  induction lines generalizing j with
  | nil => simp [mkContent_nil, sumLen]
  | cons l ls ih =>
      cases j with
      | zero => simp [sumLen]
      | succ j =>
          rw [List.take_succ_cons, sumLen_cons, mkContent_cons, ← lineChars_length l,
            drop_append_len, ih, List.drop_succ_cons]

theorem offset_wf {lines : List String} {s : Seekable} (hwf : SeekableWf lines s)
    (n : Nat) (h1 : 1 ≤ n) (h2 : n ≤ lines.length + 1) :
    s.lineStartOffset (n : Int) = sumLen (lines.take (n - 1)) := by
  simp only [Seekable.lineStartOffset, Seekable.offsetUntil]
  rcases Nat.lt_or_ge n 2 with hn | hn
  · have : n = 1 := by omega
    subst this
    rw [if_neg (by omega)]
    simp [sumLen]
  · rw [if_pos (by
      constructor
      · omega
      · rw [hwf.cl_eq, cumulAux_length, List.length_map]
        omega)]
    rw [hwf.cl_eq]
    have htn : ((n : Int) - 1 - 1).toNat = n - 2 := by omega
    rw [htn, cumulAux_getD (lines.map lineLen) 0 (n - 2) (by simp; omega)]
    rw [← List.map_take]
    simp only [sumLen, Nat.zero_add]
    rw [show n - 2 + 1 = n - 1 by omega]

theorem getD_drop_head (lines : List String) (j : Nat) (l : String) (rest : List String)
    (h : lines.drop j = l :: rest) : lines.getD j "" = l := by
  have h0 : (lines.drop j).getD 0 "" = l := by rw [h]; rfl
  rw [← h0]
  simp only [List.getD_eq_getElem?_getD]
  rw [List.getElem?_drop]
  simp

/-- Reading the line a seek landed on: seek to line `n` (for any
`n ≤ L + 1`) and `readline()` returns line `n` stripped, or `""` when
`n = L + 1` (at end of file). -/
theorem readLineAt_wf {lines : List String} {s : Seekable} (hwf : SeekableWf lines s)
    (n : Nat) (h1 : 1 ≤ n) (h2 : n ≤ lines.length + 1) :
    s.readLineAt n = lines.getD (n - 1) "" := by
  simp only [Seekable.readLineAt, Seekable.readline, Seekable.seekLineStart]
  rw [offset_wf hwf n h1 h2, hwf.content_eq, drop_mkContent]
  rcases hdrop : lines.drop (n - 1) with _ | ⟨l, rest⟩
  · have : lines.length ≤ n - 1 := by
      by_contra hcon
      have := List.drop_eq_nil_iff.mp hdrop
      omega
    rw [mkContent_nil, takeLine_nil]
    have : lines.getD (n - 1) "" = "" := by
      simp only [List.getD_eq_getElem?_getD]
      rw [List.getElem?_eq_none (by omega)]
      rfl
    rw [this]
    rfl
  · have hl : l ∈ lines := by
      have : l ∈ lines.drop (n - 1) := by rw [hdrop]; simp
      exact List.mem_of_mem_drop this
    have hcl := cleanLine_chars (hwf.lines_clean l hl)
    rw [mkContent_cons]
    rw [show lineChars l ++ mkContent rest = l.data ++ '\n' :: mkContent rest by
      simp [lineChars]]
    rw [takeLine_line l.data (mkContent rest) (fun c hc => (hcl c hc).1)]
    rw [rstripNl_line l.data hcl]
    rw [getD_drop_head lines (n - 1) l rest hdrop]

/-- Seeking past `L + 1` falls back to offset `0` (the cumulative-index
lookup is out of range), so the read returns line 1. -/
theorem readLineAt_past {lines : List String} {s : Seekable} (hwf : SeekableWf lines s)
    (n : Nat) (h : lines.length + 2 ≤ n) :
    s.readLineAt n = lines.getD 0 "" := by
  have hzero : s.lineStartOffset (n : Int) = 0 := by
    simp only [Seekable.lineStartOffset, Seekable.offsetUntil]
    rw [if_neg]
    intro hcon
    rw [hwf.cl_eq, cumulAux_length, List.length_map] at hcon
    omega
  have hone : s.readLineAt n = s.readLineAt 1 := by
    simp only [Seekable.readLineAt, Seekable.readline, Seekable.seekLineStart]
    rw [hzero, offset_wf hwf 1 le_rfl (by omega)]
    simp [sumLen]
  rw [hone, readLineAt_wf hwf 1 le_rfl (by omega)]

theorem str_ne_empty_data {l : String} (h : l ≠ "") : l.data ≠ [] := by
  intro hd
  apply h
  calc l = String.mk l.data := (string_mk_data l).symm
    _ = String.mk [] := by rw [hd]
    _ = "" := rfl

theorem readLinesFrom_mkContent (ls : List String)
    (h : ∀ l ∈ ls, l ≠ "" ∧ cleanLine l = true) :
    Seekable.readLinesFrom (mkContent ls) = ls := by
  induction ls with
  | nil =>
      rw [Seekable.readLinesFrom]
      simp [mkContent_nil]
  | cons l ls ih =>
      obtain ⟨hne, hcl⟩ := h l (by simp)
      have hchars := cleanLine_chars hcl
      have hdata : l.data ≠ [] := str_ne_empty_data hne
      have hcons : l.data ++ '\n' :: mkContent ls ≠ [] := by
        cases l.data <;> simp
      rw [show mkContent (l :: ls) = l.data ++ '\n' :: mkContent ls by
        rw [mkContent_cons]; simp [lineChars]]
      rw [Seekable.readLinesFrom, dif_neg hcons]
      simp only [takeLine_line l.data (mkContent ls) (fun c hc => (hchars c hc).1),
        rstripNl_line l.data hchars]
      rw [if_neg (show ¬ (l.data.length = 0) from
        fun hlen => hdata (List.eq_nil_of_length_eq_zero hlen))]
      rw [show (l.data ++ '\n' :: mkContent ls) = (l.data ++ ['\n']) ++ mkContent ls by simp]
      rw [List.drop_left]
      rw [ih (fun x hx => h x (by simp [hx]))]

theorem truncate_wf {lines : List String} {s : Seekable} (hwf : SeekableWf lines s)
    (n : Nat) (hn : n ≤ lines.length) :
    SeekableWf (lines.take n) (s.truncateUntilEnd n) ∧
      (s.truncateUntilEnd n).read_only = s.read_only := by
  have hcl : (s.cumulative_lengths.take n) = cumulAux 0 ((lines.take n).map lineLen) := by
    rw [hwf.cl_eq, cumulAux_take, List.map_take]
  have htl : (s.cumulative_lengths.take n).getLastD 0 = sumLen (lines.take n) := by
    rw [hcl, cumulAux_getLastD]
    split
    · rename_i hlen
      simp only [List.length_map] at hlen
      rw [List.length_take] at hlen
      have : lines.take n = [] := by
        apply List.eq_nil_of_length_eq_zero
        rw [List.length_take]
        omega
      rw [this]
      rfl
    · simp [sumLen]
  refine ⟨⟨?_, ?_, ?_, ?_, ?_⟩, rfl⟩
  · show s.content.take ((s.cumulative_lengths.take n).getLastD 0) = _
    rw [htl, hwf.content_eq]
    have hsplit : mkContent lines = mkContent (lines.take n) ++ mkContent (lines.drop n) := by
      rw [← mkContent_append, List.take_append_drop]
    rw [hsplit, ← mkContent_length, List.take_left]
  · show s.line_lengths.take n = _
    rw [hwf.ll_eq, List.map_take]
  · exact hcl
  · exact htl
  · intro l hl
    exact hwf.lines_clean l (List.mem_of_mem_take hl)

theorem writeline_wf {lines : List String} {s : Seekable} (hwf : SeekableWf lines s)
    (hro : s.read_only = false) {c : String} (hne : c ≠ "") (hcl : cleanLine c = true) :
    ∃ s', s.writeline c = some s' ∧ SeekableWf (lines ++ [c]) s' ∧
      s'.read_only = false := by
  have hdata : c.data ≠ [] := str_ne_empty_data hne
  obtain ⟨last, hlast, hlastmem⟩ : ∃ l, c.data.getLast? = some l ∧ l ∈ c.data := by
    cases hd : c.data with
    | nil => exact absurd hd hdata
    | cons a as =>
        refine ⟨(a :: as).getLast (by simp), ?_, ?_⟩
        · simp [List.getLast?_eq_getLast]
        · exact List.getLast_mem _
  have hlastne : last ≠ '\n' := (cleanLine_chars hcl last hlastmem).1
  have hlineOk : (if last = '\n' then c.data else c.data ++ ['\n']) = c.data ++ ['\n'] :=
    if_neg hlastne
  refine ⟨{ s with
      content := s.content ++ (c.data ++ ['\n'])
      pos := s.content.length + (c.data ++ ['\n']).length
      line_lengths := s.line_lengths ++ [(c.data ++ ['\n']).length]
      cumulative_lengths := s.cumulative_lengths ++
        [s.total_length + (c.data ++ ['\n']).length]
      total_length := s.total_length + (c.data ++ ['\n']).length }, ?_, ?_, hro⟩
  · simp only [Seekable.writeline, hro, Bool.false_eq_true, if_false, ite_false, hlast,
      hlineOk]
  · have hlen : (c.data ++ ['\n']).length = lineLen c := lineChars_length c
    refine ⟨?_, ?_, ?_, ?_, ?_⟩
    · show s.content ++ (c.data ++ ['\n']) = _
      rw [hwf.content_eq, mkContent_append]
      simp [mkContent, lineChars]
    · show s.line_lengths ++ [(c.data ++ ['\n']).length] = _
      rw [hwf.ll_eq, hlen, List.map_append]
      simp
    · show s.cumulative_lengths ++ [s.total_length + (c.data ++ ['\n']).length] = _
      rw [hwf.cl_eq, hwf.tl_eq, hlen, List.map_append]
      simp only [List.map_cons, List.map_nil]
      rw [cumulAux_append_one]
      simp [sumLen]
    · show s.total_length + (c.data ++ ['\n']).length = _
      rw [hwf.tl_eq, hlen, sumLen_append]
      simp [sumLen]
    · intro l hl
      rcases List.mem_append.mp hl with hl | hl
      · exact hwf.lines_clean l hl
      · simp at hl
        subst hl
        exact hcl

theorem writeAll_wf {s : Seekable} {lines : List String} (hwf : SeekableWf lines s)
    (hro : s.read_only = false) (ms : List String)
    (hms : ∀ l ∈ ms, l ≠ "" ∧ cleanLine l = true) :
    ∃ s', Seekable.writeAllLines s ms = .ok s' ∧ SeekableWf (lines ++ ms) s' ∧
      s'.read_only = false := by
  induction ms generalizing lines s with
  | nil => exact ⟨s, rfl, by simpa using hwf, hro⟩
  | cons m ms ih =>
      obtain ⟨hne, hcl⟩ := hms m (by simp)
      obtain ⟨s1, hw, hwf1, hro1⟩ := writeline_wf hwf hro hne hcl
      obtain ⟨s2, hws, hwf2, hro2⟩ := ih hwf1 hro1 (fun l hl => hms l (by simp [hl]))
      refine ⟨s2, ?_, ?_, hro2⟩
      · rw [Seekable.writeAllLines, hw]
        exact hws
      · simpa using hwf2

/-- `update_line(n, contents)` replaces exactly line `n`: under the
file invariant, with `1 ≤ n ≤ L`, a non-empty newline-free content, and
no empty line at or after line `n` (an empty line would stop
`read_from` early), the result holds lines `1..n-1`, the new content,
then lines `n+1..L`. -/
theorem updateLine_wf {lines : List String} {s : Seekable} (hwf : SeekableWf lines s)
    (hro : s.read_only = false) (n : Nat) (h1 : 1 ≤ n) (h2 : n ≤ lines.length)
    {c : String} (hne : c ≠ "") (hcl : cleanLine c = true)
    (htail : ∀ l ∈ lines.drop (n - 1), l ≠ "") :
    ∃ s', s.updateLine n c = .ok s' ∧
      SeekableWf (lines.take (n - 1) ++ c :: lines.drop n) s' := by
  have hread : s.readFrom (n : Int) = lines.drop (n - 1) := by
    simp only [Seekable.readFrom]
    rw [offset_wf hwf n h1 (by omega), hwf.content_eq, drop_mkContent]
    exact readLinesFrom_mkContent _ (fun l hl =>
      ⟨htail l hl, hwf.lines_clean l (List.mem_of_mem_drop hl)⟩)
  obtain ⟨hwf1, hro1⟩ := truncate_wf hwf (n - 1) (by omega)
  rw [hro] at hro1
  obtain ⟨s2, hw2, hwf2, hro2⟩ := writeline_wf hwf1 hro1 hne hcl
  have htail2 : ∀ l ∈ (lines.drop (n - 1)).tail, l ≠ "" ∧ cleanLine l = true := by
    intro l hl
    have hdrop : (lines.drop (n - 1)).tail = lines.drop n := by
      rw [List.tail_drop]
      congr 1
      omega
    rw [hdrop] at hl
    refine ⟨?_, hwf.lines_clean l (List.mem_of_mem_drop hl)⟩
    apply htail
    have : lines.drop n ⊆ lines.drop (n - 1) := by
      rw [← hdrop]
      exact List.tail_subset _
    exact this hl
  obtain ⟨s3, hw3, hwf3, _⟩ := writeAll_wf hwf2 hro2 _ htail2
  refine ⟨s3, ?_, ?_⟩
  · simp only [Seekable.updateLine, hread]
    rw [hw2]
    exact hw3
  · have hdrop : (lines.drop (n - 1)).tail = lines.drop n := by
      rw [List.tail_drop]
      congr 1
      omega
    rw [hdrop] at hwf3
    simpa using hwf3

/-! ## The datastore: `Manifest`, `Catalog`, `ManifestIterator`

State model of `Manifest` and its catalogs.  A catalog file is its
list of record lines (each line produced by `Catalog.write_record`,
which writes `json.dumps(record, allow_nan=False, sort_keys=True)`
through a `Seekable`); the catalog's `.catalog_manifest` stores its
`start_index` (and the line-length index, derivable from the lines).
Every mutating operation of the source immediately persists the
catalog metadata into `manifest.json` line 5, so the in-memory state
and the persisted state coincide and are modelled as one record. -/

structure CatalogState where
  lines : List String
  start_index : Nat
deriving DecidableEq

structure ManifestState where
  catalogs : List CatalogState
  current_index : Nat
  max_len : Nat
  deleted_indexes : Finset Nat
  inputs : List String
  types : List String
deriving DecidableEq

namespace ManifestState

/-- `Manifest._add_catalog`: create `catalog_<len>.catalog` (empty) with
`start_index = current_index`, append its name to `catalog_paths`, and
persist the catalog metadata. -/
def add_catalog (m : ManifestState) : ManifestState :=
  { m with catalogs := m.catalogs ++ [{ lines := [], start_index := m.current_index }] }

/-- Append a record line to the last catalog (`catalog_paths[-1]`). -/
def appendLast (cs : List CatalogState) (s : String) : List CatalogState :=
  match cs with
  | [] => []
  | [c] => [{ c with lines := c.lines ++ [s] }]
  | c :: rest => c :: appendLast rest s

/-- `Manifest.write_record`: when the current index is a positive
multiple of `max_len`, first create a new catalog (persisted).  Then
`Catalog.write_record` serializes — a `ValueError` from `json.dumps`
propagates (`Except.error` carries the datastore state at that point,
with the rollover catalog already added) — otherwise the line is
appended to the last catalog, `current_index` is incremented and the
catalog metadata persisted. -/
def write_record (m : ManifestState) (r : Jv) : Except ManifestState ManifestState :=
  let m1 := if 0 < m.current_index ∧ m.current_index % m.max_len = 0
            then m.add_catalog else m
  match dumps r with
  | none => .error m1
  | some s =>
      .ok { m1 with
        catalogs := appendLast m1.catalogs s
        current_index := m.current_index + 1 }

/-- `Manifest.delete_records`: add the indices to the deleted set and
persist; no data is removed. -/
def delete_records (m : ManifestState) (idxs : Finset Nat) : ManifestState :=
  { m with deleted_indexes := m.deleted_indexes ∪ idxs }

/-- `Manifest.restore_records`. -/
def restore_records (m : ManifestState) (idxs : Finset Nat) : ManifestState :=
  { m with deleted_indexes := m.deleted_indexes \ idxs }

/-- `Manifest.__len__`: `current_index - len(deleted_indexes)` (Python
int arithmetic, so the value can be negative). -/
def len (m : ManifestState) : Int :=
  (m.current_index : Int) - m.deleted_indexes.card

/-- All record lines across the catalogs, in file order. -/
def allLines (m : ManifestState) : List String :=
  (m.catalogs.map (fun c => c.lines)).flatten

/-- Direct segment read of the line at a logical index. -/
def lineAt (m : ManifestState) (i : Nat) : Option String := (allLines m).get? i

/-- Direct segment read and parse of the record at a logical index. -/
def recordAt (m : ManifestState) (i : Nat) : Option Jv :=
  match m.lineAt i with
  | some s => loads s
  | none => none

end ManifestState

/-- `Manifest.__init__` on a directory with no `manifest.json`: writes
the 5-line header and creates catalog 0 on disk. -/
def freshManifest (inputs types : List String) (max_len : Nat) : ManifestState :=
  ManifestState.add_catalog
    { catalogs := [], current_index := 0, max_len := max_len,
      deleted_indexes := ∅, inputs := inputs, types := types }

/-- The data of the `AssertionError` raised on a schema mismatch: the
message identifies the new and the stored schemas. -/
structure SchemaMismatch where
  new_inputs : List String
  stored_inputs : List String
  new_types : List String
  stored_types : List String
deriving DecidableEq

/-- `Manifest._read_contents` on reopen: with an empty requested schema
adopt the stored one; with a non-empty schema assert equality with the
stored schema, raising an `AssertionError` identifying both otherwise. -/
def readContents (stored : ManifestState) (inputs types : List String) :
    Except SchemaMismatch ManifestState :=
  if inputs = [] ∧ types = [] then
    .ok stored
  else if inputs = stored.inputs ∧ types = stored.types then
    .ok stored
  else
    .error ⟨inputs, stored.inputs, types, stored.types⟩

/-- `Manifest.__init__` on a directory whose `manifest.json` exists,
holding the persisted state `stored`: read and validate the contents;
if no catalogs are listed, create catalog 0. -/
def openExisting (stored : ManifestState) (inputs types : List String) :
    Except SchemaMismatch ManifestState :=
  match readContents stored inputs types with
  | .error e => .error e
  | .ok m => if m.catalogs.isEmpty then .ok m.add_catalog else .ok m

/-! ### The iterator -/

/-- `ManifestIterator` state: the logical-index counter, the index of
the catalog being read, and how many lines of it have been consumed
(the open catalog's `Seekable` cursor, which starts at line 1). -/
structure IterState where
  current_index : Nat
  current_catalog_index : Nat
  line_pos : Nat
deriving DecidableEq

/-- `ManifestIterator.__init__`. -/
def initIter : IterState := ⟨0, 0, 0⟩

theorem getD_length_pos {ls : List String} {p : Nat}
    (h : 0 < (ls.getD p "").length) : p < ls.length := by
  by_contra hc
  push_neg at hc
  rw [List.getD_eq_getElem?_getD, List.getElem?_eq_none (by omega)] at h
  simp at h

/-- `ManifestIterator.__next__`: one call of the iterator.  The
while-loop is the recursion; `none` is `StopIteration`.  Reading an
empty line means the end of the current catalog; a line whose logical
index is deleted, or which fails to parse, is skipped. -/
def iterNext (m : ManifestState) (it : IterState) : Option (Jv × IterState) :=
  if m.catalogs.length = 0 then none
  else if m.catalogs.length ≤ it.current_catalog_index then none
  else
    let cat := m.catalogs.getD it.current_catalog_index ⟨[], 0⟩
    let contents := cat.lines.getD it.line_pos ""
    if h0 : 0 < contents.length then
      have hlp : it.line_pos <
          (m.catalogs.getD it.current_catalog_index ⟨[], 0⟩).lines.length :=
        getD_length_pos h0
      let i := it.current_index
      let it' : IterState :=
        ⟨it.current_index + 1, it.current_catalog_index, it.line_pos + 1⟩
      if i ∈ m.deleted_indexes then iterNext m it'
      else
        match loads contents with
        | some r => some (r, it')
        | none => iterNext m it'
    else iterNext m ⟨it.current_index, it.current_catalog_index + 1, 0⟩
termination_by
  (m.catalogs.length - it.current_catalog_index,
    (m.catalogs.getD it.current_catalog_index ⟨[], 0⟩).lines.length - it.line_pos)
decreasing_by
  · apply Prod.Lex.right
    omega
  · apply Prod.Lex.right
    omega
  · apply Prod.Lex.left
    omega

/-- The result of the `k`-th `next()` call (0-based) on an iterator in
state `it`; after a `StopIteration` the state is unchanged, so every
later call also raises. -/
def nextCalls (m : ManifestState) : IterState → Nat → Option (Jv × IterState)
  | it, 0 => iterNext m it
  | it, k + 1 =>
      match iterNext m it with
      | none => none
      | some (_, it') => nextCalls m it' k

/-- The record sequence the iterator loop produces from counter `c`
over a list of remaining non-empty lines: skip deleted logical indices
and unparseable lines, yield the rest in order. -/
def remList (D : Finset Nat) : Nat → List String → List Jv
  | _, [] => []
  | c, s :: rest =>
      if c ∈ D then remList D (c + 1) rest
      else
        match loads s with
        | some r => r :: remList D (c + 1) rest
        | none => remList D (c + 1) rest

/-- The full sequence of records a fresh iterator yields. -/
def iterOutput (m : ManifestState) : List Jv :=
  remList m.deleted_indexes 0 m.allLines

/-- The `Manifest` invariant for a datastore holding well-formed
records: a positive segment capacity (a zero `max_len` would make
`write_record` raise `ZeroDivisionError`), at least one catalog
(`__init__` always creates catalog 0), one stored line per written
logical index, and every stored line non-empty and parseable. -/
structure WfManifest (m : ManifestState) : Prop where
  max_len_pos : 0 < m.max_len
  catalogs_ne : m.catalogs ≠ []
  lines_count : ((m.catalogs.map (fun c => c.lines.length)).sum) = m.current_index
  lines_ok : ∀ c ∈ m.catalogs, ∀ s ∈ c.lines, s ≠ "" ∧ (loads s).isSome = true

/-! ### Relating the iterator state machine to the record sequence -/

/-- The lines the iterator has yet to read: the rest of the current
catalog, then all later catalogs. -/
def linesFrom (m : ManifestState) (ci lp : Nat) : List String :=
  match m.catalogs.drop ci with
  | [] => []
  | c :: rest => c.lines.drop lp ++ (rest.map (fun c => c.lines)).flatten

/-- Iterator-state sanity: the catalog index is at most the catalog
count, and the line cursor does not exceed the open catalog's length. -/
def IterBounds (m : ManifestState) (it : IterState) : Prop :=
  it.current_catalog_index ≤ m.catalogs.length ∧
  (it.current_catalog_index < m.catalogs.length →
    it.line_pos ≤ (m.catalogs.getD it.current_catalog_index ⟨[], 0⟩).lines.length)

def iterMeasure (m : ManifestState) (it : IterState) : Nat :=
  (m.catalogs.length - it.current_catalog_index) +
    ((m.catalogs.drop it.current_catalog_index).map (fun c => c.lines.length)).sum -
    it.line_pos

theorem getD_mem {α : Type} (l : List α) (i : Nat) (d : α) (h : i < l.length) :
    l.getD i d ∈ l := by
  rw [List.getD_eq_getElem?_getD, List.getElem?_eq_getElem h]
  exact List.getElem_mem h

theorem drop_getD_cons {α : Type} (l : List α) (i : Nat) (d : α) (h : i < l.length) :
    l.drop i = l.getD i d :: l.drop (i + 1) := by
  rw [List.getD_eq_getElem?_getD, List.getElem?_eq_getElem h]
  exact List.drop_eq_getElem_cons h

theorem linesFrom_exhausted (m : ManifestState) (ci lp : Nat)
    (h : m.catalogs.length ≤ ci) : linesFrom m ci lp = [] := by
  simp only [linesFrom]
  rw [List.drop_eq_nil_of_le h]

theorem linesFrom_cons (m : ManifestState) (ci lp : Nat) (hci : ci < m.catalogs.length)
    (hlp : lp < (m.catalogs.getD ci ⟨[], 0⟩).lines.length) :
    linesFrom m ci lp =
      ((m.catalogs.getD ci ⟨[], 0⟩).lines.getD lp "") :: linesFrom m ci (lp + 1) := by
  simp only [linesFrom]
  rw [drop_getD_cons m.catalogs ci ⟨[], 0⟩ hci]
  dsimp only
  rw [drop_getD_cons (m.catalogs.getD ci ⟨[], 0⟩).lines lp "" hlp]
  simp

theorem linesFrom_advance (m : ManifestState) (ci lp : Nat)
    (hci : ci < m.catalogs.length)
    (hlp : (m.catalogs.getD ci ⟨[], 0⟩).lines.length ≤ lp) :
    linesFrom m ci lp = linesFrom m (ci + 1) 0 := by
  simp only [linesFrom]
  rw [drop_getD_cons m.catalogs ci ⟨[], 0⟩ hci]
  dsimp only
  rw [List.drop_eq_nil_of_le hlp]
  rcases hrest : m.catalogs.drop (ci + 1) with _ | ⟨c2, rest2⟩
  · simp
  · simp

theorem linesFrom_init (m : ManifestState) : linesFrom m 0 0 = m.allLines := by
  simp only [linesFrom, List.drop_zero, ManifestState.allLines]
  rcases hc : m.catalogs with _ | ⟨c, rest⟩
  · simp
  · simp

theorem sum_drop_cons (m : ManifestState) (ci : Nat) (hci : ci < m.catalogs.length) :
    ((m.catalogs.drop ci).map (fun c => c.lines.length)).sum =
      (m.catalogs.getD ci ⟨[], 0⟩).lines.length +
        ((m.catalogs.drop (ci + 1)).map (fun c => c.lines.length)).sum := by
  rw [drop_getD_cons m.catalogs ci ⟨[], 0⟩ hci]
  simp

theorem length_pos_of_ne_empty {s : String} (h : s ≠ "") : 0 < s.length := by
  have hd := str_ne_empty_data h
  show 0 < s.data.length
  cases hq : s.data with
  | nil => exact absurd hq hd
  | cons a as => simp

theorem iterNext_exhausted (m : ManifestState) (it : IterState)
    (hK : m.catalogs.length ≤ it.current_catalog_index) : iterNext m it = none := by
  rw [iterNext]
  by_cases h0 : m.catalogs.length = 0
  · rw [if_pos h0]
  · rw [if_neg h0, if_pos hK]

/-- One `next()` call, under the datastore invariant, behaves exactly
as the head of the pending record sequence: it raises `StopIteration`
when the sequence is empty, and otherwise yields its head and moves to
a state whose pending sequence is the tail. -/
theorem iterNext_spec (m : ManifestState) (hwf : WfManifest m) :
    ∀ n it, iterMeasure m it ≤ n → IterBounds m it →
      (remList m.deleted_indexes it.current_index
          (linesFrom m it.current_catalog_index it.line_pos) = [] →
        iterNext m it = none) ∧
      (∀ r rest, remList m.deleted_indexes it.current_index
          (linesFrom m it.current_catalog_index it.line_pos) = r :: rest →
        ∃ it', iterNext m it = some (r, it') ∧ IterBounds m it' ∧
          remList m.deleted_indexes it'.current_index
            (linesFrom m it'.current_catalog_index it'.line_pos) = rest) := by
  intro n
  induction n with
  | zero =>
      intro it hmu hb
      have hK : m.catalogs.length ≤ it.current_catalog_index := by
        by_contra hc
        push_neg at hc
        have hsum := sum_drop_cons m it.current_catalog_index hc
        have hlp := hb.2 hc
        simp only [iterMeasure] at hmu
        omega
      rw [linesFrom_exhausted m _ _ hK]
      constructor
      · intro _
        exact iterNext_exhausted m it hK
      · intro r rest hcons
        simp [remList] at hcons
  | succ n ih =>
      intro it hmu hb
      by_cases hKc : m.catalogs.length ≤ it.current_catalog_index
      · rw [linesFrom_exhausted m _ _ hKc]
        constructor
        · intro _
          exact iterNext_exhausted m it hKc
        · intro r rest hcons
          simp [remList] at hcons
      push_neg at hKc
      have hK0 : m.catalogs.length ≠ 0 := by omega
      have hsum := sum_drop_cons m it.current_catalog_index hKc
      have hcat_mem : m.catalogs.getD it.current_catalog_index ⟨[], 0⟩ ∈ m.catalogs :=
        getD_mem _ _ _ hKc
      by_cases hlp : it.line_pos <
          (m.catalogs.getD it.current_catalog_index ⟨[], 0⟩).lines.length
      · -- a line is available at the cursor
        have hmem : (m.catalogs.getD it.current_catalog_index ⟨[], 0⟩).lines.getD
            it.line_pos "" ∈ (m.catalogs.getD it.current_catalog_index ⟨[], 0⟩).lines :=
          getD_mem _ _ _ hlp
        obtain ⟨hne, hparse⟩ := hwf.lines_ok _ hcat_mem _ hmem
        have hlen0 : 0 < ((m.catalogs.getD it.current_catalog_index ⟨[], 0⟩).lines.getD
            it.line_pos "").length := length_pos_of_ne_empty hne
        have hsplit := linesFrom_cons m it.current_catalog_index it.line_pos hKc hlp
        have hb' : IterBounds m ⟨it.current_index + 1, it.current_catalog_index,
            it.line_pos + 1⟩ := by
          refine ⟨hb.1, fun _ => ?_⟩
          simpa using hlp
        have hmu' : iterMeasure m ⟨it.current_index + 1, it.current_catalog_index,
            it.line_pos + 1⟩ ≤ n := by
          have hmu2 : (m.catalogs.length - it.current_catalog_index) +
              ((m.catalogs.drop it.current_catalog_index).map
                (fun c => c.lines.length)).sum - it.line_pos ≤ n + 1 := hmu
          show (m.catalogs.length - it.current_catalog_index) +
              ((m.catalogs.drop it.current_catalog_index).map
                (fun c => c.lines.length)).sum - (it.line_pos + 1) ≤ n
          omega
        have hunfold : iterNext m it =
            (if it.current_index ∈ m.deleted_indexes then
              iterNext m ⟨it.current_index + 1, it.current_catalog_index, it.line_pos + 1⟩
            else
              match loads ((m.catalogs.getD it.current_catalog_index ⟨[], 0⟩).lines.getD
                  it.line_pos "") with
              | some r => some (r, ⟨it.current_index + 1, it.current_catalog_index,
                  it.line_pos + 1⟩)
              | none => iterNext m ⟨it.current_index + 1, it.current_catalog_index,
                  it.line_pos + 1⟩) := by
          rw [iterNext]
          rw [if_neg hK0, if_neg (by omega)]
          rw [dif_pos hlen0]
        obtain ⟨ihnil, ihcons⟩ := ih ⟨it.current_index + 1, it.current_catalog_index,
          it.line_pos + 1⟩ hmu' hb'
        by_cases hdel : it.current_index ∈ m.deleted_indexes
        · have hremdel : remList m.deleted_indexes it.current_index
              (linesFrom m it.current_catalog_index it.line_pos) =
              remList m.deleted_indexes (it.current_index + 1)
                (linesFrom m it.current_catalog_index (it.line_pos + 1)) := by
            rw [hsplit, remList, if_pos hdel]
          rw [hunfold, if_pos hdel]
          constructor
          · intro hnil0
            rw [hremdel] at hnil0
            exact ihnil hnil0
          · intro r rest hcons0
            rw [hremdel] at hcons0
            exact ihcons r rest hcons0
        · obtain ⟨rv, hrv⟩ := Option.isSome_iff_exists.mp hparse
          have hstep : iterNext m it = some (rv, ⟨it.current_index + 1,
              it.current_catalog_index, it.line_pos + 1⟩) := by
            rw [hunfold, if_neg hdel, hrv]
          have hremcons : remList m.deleted_indexes it.current_index
              (linesFrom m it.current_catalog_index it.line_pos) =
              rv :: remList m.deleted_indexes (it.current_index + 1)
                (linesFrom m it.current_catalog_index (it.line_pos + 1)) := by
            rw [hsplit, remList, if_neg hdel, hrv]
          constructor
          · intro hnil0
            rw [hremcons] at hnil0
            simp at hnil0
          · intro r rest hcons0
            rw [hremcons] at hcons0
            injection hcons0 with h1 h2
            subst h1
            exact ⟨_, hstep, hb', h2⟩
      · -- cursor at / past the end of the current catalog: advance
        push_neg at hlp
        have hcontents : (m.catalogs.getD it.current_catalog_index ⟨[], 0⟩).lines.getD
            it.line_pos "" = "" := by
          rw [List.getD_eq_getElem?_getD, List.getElem?_eq_none (by omega)]
          rfl
        have hlpeq : it.line_pos =
            (m.catalogs.getD it.current_catalog_index ⟨[], 0⟩).lines.length := by
          have := hb.2 hKc
          omega
        have hskip := linesFrom_advance m it.current_catalog_index it.line_pos hKc hlp
        have hb' : IterBounds m ⟨it.current_index, it.current_catalog_index + 1, 0⟩ := by
          refine ⟨?_, fun _ => by simp⟩
          show it.current_catalog_index + 1 ≤ m.catalogs.length
          omega
        have hmu' : iterMeasure m ⟨it.current_index, it.current_catalog_index + 1, 0⟩
            ≤ n := by
          have hmu2 : (m.catalogs.length - it.current_catalog_index) +
              ((m.catalogs.drop it.current_catalog_index).map
                (fun c => c.lines.length)).sum - it.line_pos ≤ n + 1 := hmu
          show (m.catalogs.length - (it.current_catalog_index + 1)) +
              ((m.catalogs.drop (it.current_catalog_index + 1)).map
                (fun c => c.lines.length)).sum - 0 ≤ n
          omega
        have hunfold : iterNext m it =
            iterNext m ⟨it.current_index, it.current_catalog_index + 1, 0⟩ := by
          rw [iterNext]
          rw [if_neg hK0, if_neg (by omega)]
          rw [dif_neg (by rw [hcontents]; simp)]
        obtain ⟨ihnil, ihcons⟩ := ih ⟨it.current_index, it.current_catalog_index + 1, 0⟩
          hmu' hb'
        rw [hunfold, hskip]
        exact ⟨ihnil, ihcons⟩


/-! ## Total serialization on the modelled fragment

`json.dumps(..., allow_nan=False, sort_keys=True)` succeeds on every
record whose floats are finite and whose strings (keys and values) lie
in the escape-free character set the embedding models. -/

mutual

def strsOk : Jv → Bool
  | .jstr s => s.data.all strOk
  | .jarr xs => strsOkElems xs
  | .jobj kvs => strsOkMembers kvs
  | _ => true

def strsOkElems : List Jv → Bool
  | [] => true
  | x :: xs => strsOk x && strsOkElems xs

def strsOkMembers : List (String × Jv) → Bool
  | [] => true
  | (k, v) :: kvs => k.data.all strOk && strsOk v && strsOkMembers kvs

end

theorem hasNFMembers_false_iff (l : List (String × Jv)) :
    hasNFMembers l = false ↔ ∀ kv ∈ l, hasNonFinite kv.2 = false := by
  induction l with
  | nil => simp [hasNFMembers]
  | cons p ps ih =>
      rcases p with ⟨k, v⟩
      simp only [hasNFMembers, Bool.or_eq_false_iff, ih, List.mem_cons]
      constructor
      · rintro ⟨h1, h2⟩ kv (rfl | hkv)
        · exact h1
        · exact h2 kv hkv
      · intro h
        exact ⟨h (k, v) (Or.inl rfl), fun kv hkv => h kv (Or.inr hkv)⟩

theorem strsOkMembers_iff (l : List (String × Jv)) :
    strsOkMembers l = true ↔
      ∀ kv ∈ l, kv.1.data.all strOk = true ∧ strsOk kv.2 = true := by
  induction l with
  | nil => simp [strsOkMembers]
  | cons p ps ih =>
      rcases p with ⟨k, v⟩
      simp only [strsOkMembers, Bool.and_eq_true, ih, List.mem_cons]
      constructor
      · rintro ⟨⟨h1, h2⟩, h3⟩ kv (rfl | hkv)
        · exact ⟨h1, h2⟩
        · exact h3 kv hkv
      · intro h
        exact ⟨⟨(h (k, v) (Or.inl rfl)).1, (h (k, v) (Or.inl rfl)).2⟩,
          fun kv hkv => h kv (Or.inr hkv)⟩

theorem dump_total : ∀ f,
    (∀ v, wVal v ≤ f → hasNonFinite v = false → strsOk v = true →
      (dumpVal v).isSome = true) ∧
    (∀ xs, wTail xs ≤ f → hasNFElems xs = false → strsOkElems xs = true →
      (dumpElems xs).isSome = true ∧ (dumpTail xs).isSome = true) ∧
    (∀ kvs, wMTail kvs ≤ f → hasNFMembers kvs = false → strsOkMembers kvs = true →
      (dumpMembers kvs).isSome = true ∧ (dumpMTail kvs).isSome = true) := by
  intro f
  induction f with
  | zero =>
      refine ⟨fun v hv => absurd hv (by have := wVal_pos v; omega),
        fun xs hxs => absurd hxs (by have := wTail_pos xs; omega),
        fun kvs hkvs => absurd hkvs (by have := wMTail_pos kvs; omega)⟩
  | succ f ih =>
      obtain ⟨ihv, ihe, ihm⟩ := ih
      refine ⟨?_, ?_, ?_⟩
      · intro v hw hnf hso
        cases v with
        | jnull => simp [dumpVal]
        | jbool b => cases b <;> simp [dumpVal]
        | jint n => simp [dumpVal]
        | jnan => simp [hasNonFinite] at hnf
        | jinf => simp [hasNonFinite] at hnf
        | jninf => simp [hasNonFinite] at hnf
        | jstr s =>
            simp only [strsOk] at hso
            simp [dumpVal, hso]
        | jarr xs =>
            simp only [hasNonFinite] at hnf
            simp only [strsOk] at hso
            simp only [wVal] at hw
            obtain ⟨l, hl⟩ := Option.isSome_iff_exists.mp
              ((ihe xs (by omega) hnf hso).1)
            simp [dumpVal, hl]
        | jobj kvs =>
            simp only [hasNonFinite] at hnf
            simp only [strsOk] at hso
            simp only [wVal] at hw
            have hnf2 : hasNFMembers (sortPairs kvs) = false := by
              rw [hasNFMembers_false_iff]
              intro kv hkv
              exact (hasNFMembers_false_iff kvs).mp hnf kv ((mem_sortPairs kv kvs).mp hkv)
            have hso2 : strsOkMembers (sortPairs kvs) = true := by
              rw [strsOkMembers_iff]
              intro kv hkv
              exact (strsOkMembers_iff kvs).mp hso kv ((mem_sortPairs kv kvs).mp hkv)
            have hwm : wMTail (sortPairs kvs) ≤ f := by
              rw [wMTail_sortPairs]
              omega
            obtain ⟨l, hl⟩ := Option.isSome_iff_exists.mp
              ((ihm (sortPairs kvs) hwm hnf2 hso2).1)
            simp [dumpVal, hl]
      · intro xs hw hnf hso
        cases xs with
        | nil => simp [dumpElems, dumpTail]
        | cons x xs =>
            simp only [hasNFElems, Bool.or_eq_false_iff] at hnf
            simp only [strsOkElems, Bool.and_eq_true] at hso
            simp only [wTail] at hw
            obtain ⟨cx, hcx⟩ := Option.isSome_iff_exists.mp
              (ihv x (by omega) hnf.1 hso.1)
            obtain ⟨rest, hrest⟩ := Option.isSome_iff_exists.mp
              ((ihe xs (by omega) hnf.2 hso.2).2)
            constructor
            · simp [dumpElems, hcx, hrest]
            · simp [dumpTail, hcx, hrest]
      · intro kvs hw hnf hso
        cases kvs with
        | nil => simp [dumpMembers, dumpMTail]
        | cons kv kvs1 =>
            rcases kv with ⟨k, v⟩
            simp only [hasNFMembers, Bool.or_eq_false_iff] at hnf
            simp only [strsOkMembers, Bool.and_eq_true] at hso
            simp only [wMTail] at hw
            have hw0 : 1 + wVal v + wMTail kvs1 ≤ f + 1 := by simpa using hw
            have hkey : dumpKey k = some (quoteChar :: k.data ++ [quoteChar]) := by
              simp [dumpKey, hso.1.1]
            obtain ⟨cv, hcv⟩ := Option.isSome_iff_exists.mp
              (ihv v (by omega) (by simpa using hnf.1) hso.1.2)
            obtain ⟨rest, hrest⟩ := Option.isSome_iff_exists.mp
              ((ihm kvs1 (by omega) hnf.2 hso.2).2)
            constructor
            · simp [dumpMembers, hkey, hcv, hrest]
            · simp [dumpMTail, hkey, hcv, hrest]

/-- Serialization succeeds on every modelled record with finite floats. -/
theorem dumps_total {v : Jv} (hnf : hasNonFinite v = false) (hso : strsOk v = true) :
    ∃ s, dumps v = some s := by
  obtain ⟨l, hl⟩ := Option.isSome_iff_exists.mp
    ((dump_total (wVal v)).1 v le_rfl hnf hso)
  exact ⟨String.mk l, by simp [dumps, hl]⟩

/-! ## `remList` calculus -/

theorem remList_append (D : Finset Nat) :
    ∀ (xs : List String) (c : Nat) (ys : List String),
    remList D c (xs ++ ys) = remList D c xs ++ remList D (c + xs.length) ys := by
  intro xs
  induction xs with
  | nil =>
      intro c ys
      simp [remList]
  | cons s rest ih =>
      intro c ys
      have harith : c + (s :: rest).length = (c + 1) + rest.length := by
        simp only [List.length_cons]
        omega
      rw [harith]
      simp only [List.cons_append, remList]
      by_cases hc : c ∈ D
      · rw [if_pos hc, if_pos hc]
        exact ih (c + 1) ys
      · rw [if_neg hc, if_neg hc]
        rcases hl : loads s with _ | r
        · exact ih (c + 1) ys
        · simp only [List.append_eq]
          rw [ih (c + 1) ys, List.cons_append]

theorem remList_congr (D E : Finset Nat) : ∀ (lines : List String) (c : Nat),
    (∀ j, c ≤ j → j < c + lines.length → (j ∈ D ↔ j ∈ E)) →
    remList D c lines = remList E c lines := by
  intro lines
  induction lines with
  | nil =>
      intro c _
      rfl
  | cons s rest ih =>
      intro c hag
      simp only [remList]
      have hc : c ∈ D ↔ c ∈ E := hag c le_rfl (by simp only [List.length_cons]; omega)
      have hrest : ∀ j, c + 1 ≤ j → j < (c + 1) + rest.length → (j ∈ D ↔ j ∈ E) := by
        intro j h1 h2
        exact hag j (by omega) (by simp only [List.length_cons]; omega)
      by_cases hcD : c ∈ D
      · rw [if_pos hcD, if_pos (hc.mp hcD)]
        exact ih (c + 1) hrest
      · rw [if_neg hcD, if_neg (fun h => hcD (hc.mpr h))]
        rcases hl : loads s with _ | r
        · exact ih (c + 1) hrest
        · dsimp only
          rw [ih (c + 1) hrest]

theorem remList_length (D : Finset Nat) : ∀ (lines : List String) (c : Nat),
    (∀ s ∈ lines, (loads s).isSome = true) →
    (remList D c lines).length + (D ∩ Finset.Ico c (c + lines.length)).card
      = lines.length := by
  intro lines
  induction lines with
  | nil =>
      intro c _
      simp [remList]
  | cons s rest ih =>
      intro c hp
      have hrec := ih (c + 1) (fun x hx => hp x (List.mem_cons_of_mem s hx))
      simp only [remList, List.length_cons]
      by_cases hc : c ∈ D
      · rw [if_pos hc]
        have hset : D ∩ Finset.Ico c (c + (rest.length + 1))
            = insert c (D ∩ Finset.Ico (c + 1) ((c + 1) + rest.length)) := by
          ext j
          simp only [Finset.mem_inter, Finset.mem_Ico, Finset.mem_insert]
          constructor
          · rintro ⟨hjD, h1, h2⟩
            by_cases hj : j = c
            · exact Or.inl hj
            · exact Or.inr ⟨hjD, by omega, by omega⟩
          · rintro (rfl | ⟨hjD, h1, h2⟩)
            · exact ⟨hc, le_refl j, by omega⟩
            · exact ⟨hjD, by omega, by omega⟩
        have hnotmem : c ∉ D ∩ Finset.Ico (c + 1) ((c + 1) + rest.length) := by
          simp only [Finset.mem_inter, Finset.mem_Ico]
          rintro ⟨_, h1, _⟩
          omega
        rw [hset, Finset.card_insert_of_not_mem hnotmem]
        omega
      · rw [if_neg hc]
        obtain ⟨r, hr⟩ := Option.isSome_iff_exists.mp (hp s (List.mem_cons_self s rest))
        rw [hr]
        dsimp only
        have hset : D ∩ Finset.Ico c (c + (rest.length + 1))
            = D ∩ Finset.Ico (c + 1) ((c + 1) + rest.length) := by
          ext j
          simp only [Finset.mem_inter, Finset.mem_Ico]
          constructor
          · rintro ⟨hjD, h1, h2⟩
            by_cases hj : j = c
            · subst hj
              exact absurd hjD hc
            · exact ⟨hjD, by omega, by omega⟩
          · rintro ⟨hjD, h1, h2⟩
            exact ⟨hjD, by omega, by omega⟩
        rw [List.length_cons, hset]
        omega

theorem allLines_length (m : ManifestState) :
    m.allLines.length = (m.catalogs.map (fun c => c.lines.length)).sum := by
  simp [ManifestState.allLines, List.length_flatten, List.map_map, Function.comp_def]

theorem allLines_ok {m : ManifestState} (hwf : WfManifest m) :
    ∀ s ∈ m.allLines, s ≠ "" ∧ (loads s).isSome = true := by
  intro s hs
  simp only [ManifestState.allLines, List.mem_flatten, List.mem_map] at hs
  obtain ⟨l, ⟨c, hc, rfl⟩, hsl⟩ := hs
  exact hwf.lines_ok c hc s hsl

theorem allLines_current {m : ManifestState} (hwf : WfManifest m) :
    m.allLines.length = m.current_index := by
  rw [allLines_length]
  exact hwf.lines_count

/-! ## The fresh iterator against `iterOutput` -/

theorem initIter_bounds (m : ManifestState) : IterBounds m initIter :=
  ⟨Nat.zero_le _, fun _ => Nat.zero_le _⟩

/-- The `k`-th `next()` call yields the `k`-th entry of the pending
record sequence (and `StopIteration` past its end). -/
theorem nextCalls_spec (m : ManifestState) (hwf : WfManifest m) :
    ∀ (k : Nat) (it : IterState), IterBounds m it →
      (nextCalls m it k).map Prod.fst =
        (remList m.deleted_indexes it.current_index
          (linesFrom m it.current_catalog_index it.line_pos)).get? k := by
  intro k
  induction k with
  | zero =>
      intro it hb
      obtain ⟨hnil, hcons⟩ := iterNext_spec m hwf (iterMeasure m it) it le_rfl hb
      rcases hrem : remList m.deleted_indexes it.current_index
          (linesFrom m it.current_catalog_index it.line_pos) with _ | ⟨r, rest⟩
      · simp [nextCalls, hnil hrem]
      · obtain ⟨it2, hstep, _, _⟩ := hcons r rest hrem
        simp [nextCalls, hstep]
  | succ k ih =>
      intro it hb
      obtain ⟨hnil, hcons⟩ := iterNext_spec m hwf (iterMeasure m it) it le_rfl hb
      rcases hrem : remList m.deleted_indexes it.current_index
          (linesFrom m it.current_catalog_index it.line_pos) with _ | ⟨r, rest⟩
      · simp [nextCalls, hnil hrem]
      · obtain ⟨it2, hstep, hb2, hrest⟩ := hcons r rest hrem
        simp only [nextCalls, hstep]
        rw [ih it2 hb2, hrest]
        simp

/-- A fresh iterator's calls, read off `iterOutput`. -/
theorem nextCalls_init (m : ManifestState) (hwf : WfManifest m) (k : Nat) :
    (nextCalls m initIter k).map Prod.fst = (iterOutput m).get? k := by
  have h := nextCalls_spec m hwf k initIter (initIter_bounds m)
  simp only [initIter] at h
  rw [linesFrom_init m] at h
  exact h

/-- `StopIteration` on every call at or past the output length. -/
theorem nextCalls_exhausted (m : ManifestState) (hwf : WfManifest m) (k : Nat)
    (hk : (iterOutput m).length ≤ k) : nextCalls m initIter k = none := by
  have h := nextCalls_init m hwf k
  rw [List.get?_eq_none.mpr hk] at h
  exact Option.map_eq_none'.mp h

/-! ## The write path -/

theorem allLines_add_catalog (m : ManifestState) :
    m.add_catalog.allLines = m.allLines := by
  simp [ManifestState.add_catalog, ManifestState.allLines]

theorem add_catalog_sum (m : ManifestState) :
    (m.add_catalog.catalogs.map (fun c => c.lines.length)).sum
      = (m.catalogs.map (fun c => c.lines.length)).sum := by
  simp [ManifestState.add_catalog]

theorem appendLast_flatten (s : String) :
    ∀ cs : List CatalogState, cs ≠ [] →
    ((ManifestState.appendLast cs s).map (fun c => c.lines)).flatten
      = (cs.map (fun c => c.lines)).flatten ++ [s] := by
  intro cs
  induction cs with
  | nil =>
      intro h
      exact absurd rfl h
  | cons c rest ih =>
      intro _
      cases rest with
      | nil => simp [ManifestState.appendLast]
      | cons c2 rest2 =>
          simp only [ManifestState.appendLast, List.map_cons, List.flatten_cons]
          rw [ih (by simp)]
          simp

theorem appendLast_start (s : String) :
    ∀ cs : List CatalogState,
    (ManifestState.appendLast cs s).map (fun c => c.start_index)
      = cs.map (fun c => c.start_index) := by
  intro cs
  induction cs with
  | nil => rfl
  | cons c rest ih =>
      cases rest with
      | nil => simp [ManifestState.appendLast]
      | cons c2 rest2 =>
          simp only [ManifestState.appendLast, List.map_cons]
          rw [ih]
          simp

theorem appendLast_sum (s : String) :
    ∀ cs : List CatalogState, cs ≠ [] →
    ((ManifestState.appendLast cs s).map (fun c => c.lines.length)).sum
      = (cs.map (fun c => c.lines.length)).sum + 1 := by
  intro cs
  induction cs with
  | nil =>
      intro h
      exact absurd rfl h
  | cons c rest ih =>
      intro _
      cases rest with
      | nil => simp [ManifestState.appendLast]
      | cons c2 rest2 =>
          simp only [ManifestState.appendLast, List.map_cons, List.sum_cons]
          rw [ih (by simp)]
          simp only [List.map_cons, List.sum_cons]
          omega

theorem appendLast_ne (s : String) :
    ∀ cs : List CatalogState, cs ≠ [] → ManifestState.appendLast cs s ≠ [] := by
  intro cs
  cases cs with
  | nil =>
      intro h
      exact absurd rfl h
  | cons c rest =>
      intro _
      cases rest with
      | nil => simp [ManifestState.appendLast]
      | cons c2 rest2 => simp [ManifestState.appendLast]

/-- A successful `write_record` in terms of its effect on every field
the claims mention. -/
theorem write_record_fields {m : ManifestState} {r : Jv} {s : String}
    (hs : dumps r = some s) (hne : m.catalogs ≠ []) :
    ∃ m2, m.write_record r = .ok m2 ∧
      m2.allLines = m.allLines ++ [s] ∧
      m2.current_index = m.current_index + 1 ∧
      m2.max_len = m.max_len ∧
      m2.deleted_indexes = m.deleted_indexes ∧
      m2.catalogs ≠ [] ∧
      (m2.catalogs.map (fun c => c.lines.length)).sum
        = (m.catalogs.map (fun c => c.lines.length)).sum + 1 := by
  by_cases hb : 0 < m.current_index ∧ m.current_index % m.max_len = 0
  · have hcat : m.add_catalog.catalogs ≠ [] := by
      simp [ManifestState.add_catalog]
    refine ⟨{ m.add_catalog with
        catalogs := ManifestState.appendLast m.add_catalog.catalogs s,
        current_index := m.current_index + 1 }, ?_, ?_, rfl, rfl, rfl, ?_, ?_⟩
    · simp [ManifestState.write_record, hs, hb]
    · show ((ManifestState.appendLast m.add_catalog.catalogs s).map
          (fun c => c.lines)).flatten = m.allLines ++ [s]
      rw [appendLast_flatten s _ hcat]
      rw [show (m.add_catalog.catalogs.map (fun c => c.lines)).flatten
        = m.add_catalog.allLines from rfl, allLines_add_catalog]
    · exact appendLast_ne s _ hcat
    · show ((ManifestState.appendLast m.add_catalog.catalogs s).map
          (fun c => c.lines.length)).sum = _
      rw [appendLast_sum s _ hcat, add_catalog_sum]
  · refine ⟨{ m with
        catalogs := ManifestState.appendLast m.catalogs s,
        current_index := m.current_index + 1 }, ?_, ?_, rfl, rfl, rfl, ?_, ?_⟩
    · simp [ManifestState.write_record, hs, hb]
    · show ((ManifestState.appendLast m.catalogs s).map
          (fun c => c.lines)).flatten = m.allLines ++ [s]
      rw [appendLast_flatten s _ hne]
      rfl
    · exact appendLast_ne s _ hne
    · show ((ManifestState.appendLast m.catalogs s).map
          (fun c => c.lines.length)).sum = _
      rw [appendLast_sum s _ hne]

/-- A successful write preserves the datastore invariant. -/
theorem write_record_wf {m : ManifestState} (hwf : WfManifest m) {r : Jv} {s : String}
    (hs : dumps r = some s) {m2 : ManifestState}
    (hall : m2.allLines = m.allLines ++ [s])
    (hci : m2.current_index = m.current_index + 1)
    (hml : m2.max_len = m.max_len)
    (hne2 : m2.catalogs ≠ [])
    (hsum : (m2.catalogs.map (fun c => c.lines.length)).sum
      = (m.catalogs.map (fun c => c.lines.length)).sum + 1) : WfManifest m2 := by
  refine ⟨?_, hne2, ?_, ?_⟩
  · rw [hml]
    exact hwf.max_len_pos
  · rw [hsum, hci, hwf.lines_count]
  · intro c hc t ht
    have htall : t ∈ m2.allLines := by
      simp only [ManifestState.allLines, List.mem_flatten, List.mem_map]
      exact ⟨c.lines, ⟨c, hc, rfl⟩, ht⟩
    rw [hall] at htall
    rcases List.mem_append.mp htall with hL | hR
    · exact allLines_ok hwf t hL
    · have hts : t = s := by simpa using hR
      subst hts
      constructor
      · intro he
        apply dumps_ne_empty hs
        rw [he]
      · rw [loads_dumps hs]
        rfl

/-! ## Repeated writes (`writeAll`) and segment rollover -/

/-- `write_record` as run by client code that ignores failures; on
success it is the new state, on a serialization error the state the
exception leaves behind. -/
def writeRecTotal (m : ManifestState) (r : Jv) : ManifestState :=
  match m.write_record r with
  | .ok m2 => m2
  | .error m2 => m2

/-- Write a list of records in order. -/
def writeAll (m : ManifestState) : List Jv → ManifestState
  | [] => m
  | r :: rs => writeAll (writeRecTotal m r) rs

/-- One successful write: the stored `start_index` list gains the entry
`current_index` exactly at a rollover boundary. -/
theorem write_record_startIdxs {m : ManifestState} {r : Jv} {s : String}
    (hs : dumps r = some s) :
    (writeRecTotal m r).catalogs.map (fun c => c.start_index)
      = (if 0 < m.current_index ∧ m.current_index % m.max_len = 0
         then m.catalogs.map (fun c => c.start_index) ++ [m.current_index]
         else m.catalogs.map (fun c => c.start_index)) ∧
    (writeRecTotal m r).current_index = m.current_index + 1 ∧
    (writeRecTotal m r).max_len = m.max_len := by
  by_cases hb : 0 < m.current_index ∧ m.current_index % m.max_len = 0
  · rw [if_pos hb]
    have hw : m.write_record r = .ok { m.add_catalog with
        catalogs := ManifestState.appendLast m.add_catalog.catalogs s,
        current_index := m.current_index + 1 } := by
      simp [ManifestState.write_record, hs, hb]
    rw [writeRecTotal, hw]
    refine ⟨?_, rfl, rfl⟩
    show (ManifestState.appendLast m.add_catalog.catalogs s).map
        (fun c => c.start_index) = _
    rw [appendLast_start]
    simp [ManifestState.add_catalog]
  · rw [if_neg hb]
    have hw : m.write_record r = .ok { m with
        catalogs := ManifestState.appendLast m.catalogs s,
        current_index := m.current_index + 1 } := by
      simp [ManifestState.write_record, hs, hb]
    rw [writeRecTotal, hw]
    refine ⟨?_, rfl, rfl⟩
    show (ManifestState.appendLast m.catalogs s).map (fun c => c.start_index) = _
    rw [appendLast_start]

/-- The catalog bookkeeping invariant under repeated writes: after `t`
writes the stored start indices are `0, mx, 2*mx, ...` with
`(t - 1) / mx + 1` catalogs. -/
theorem writeAll_inv (mx : Nat) (hmx : 1 ≤ mx) :
    ∀ (rs : List Jv) (m : ManifestState) (t : Nat),
    (∀ r ∈ rs, (dumps r).isSome = true) →
    m.max_len = mx → m.current_index = t →
    m.catalogs.map (fun c => c.start_index)
      = (List.range ((t - 1) / mx + 1)).map (fun i => i * mx) →
    (writeAll m rs).current_index = t + rs.length ∧
    (writeAll m rs).max_len = mx ∧
    (writeAll m rs).catalogs.map (fun c => c.start_index)
      = (List.range ((t + rs.length - 1) / mx + 1)).map (fun i => i * mx) := by
  intro rs
  induction rs with
  | nil =>
      intro m t hp hml hci hst
      simp only [writeAll, List.length_nil, Nat.add_zero]
      exact ⟨hci, hml, hst⟩
  | cons r rs ih =>
      intro m t hp hml hci hst
      obtain ⟨s, hs⟩ := Option.isSome_iff_exists.mp (hp r (List.mem_cons_self r rs))
      obtain ⟨hst2, hci2, hml2⟩ := write_record_startIdxs (m := m) hs
      rw [hci] at hci2
      rw [hml] at hml2
      have hmain : (writeRecTotal m r).catalogs.map (fun c => c.start_index)
          = (List.range ((t + 1 - 1) / mx + 1)).map (fun i => i * mx) := by
        rw [hst2, hci, hml, hst]
        by_cases hb : 0 < t ∧ t % mx = 0
        · rw [if_pos hb]
          obtain ⟨j, hj⟩ := Nat.dvd_of_mod_eq_zero hb.2
          have hj1 : 1 ≤ j := by
            rcases Nat.eq_zero_or_pos j with rfl | h
            · rw [Nat.mul_zero] at hj
              omega
            · exact h
          have hj2 : t = j * mx := by rw [hj, Nat.mul_comm]
          have hdiv1 : (t - 1) / mx = j - 1 := by
            apply Nat.div_eq_of_lt_le
            · rw [Nat.sub_mul, one_mul, ← hj2]
              omega
            · show t - 1 < (j - 1 + 1) * mx
              have hjt : (j - 1 + 1) * mx = t := by
                have hjj : j - 1 + 1 = j := by omega
                rw [hjj, ← hj2]
              rw [hjt]
              omega
          have hdiv2 : t / mx = j := by
            rw [hj]
            exact Nat.mul_div_cancel_left j (by omega)
          have h1 : (t - 1) / mx + 1 = j := by
            rw [hdiv1]
            omega
          have h2 : (t + 1 - 1) / mx + 1 = j + 1 := by
            have hts : t + 1 - 1 = t := by omega
            rw [hts, hdiv2]
          rw [h1, h2, List.range_succ, List.map_append, hj2]
          simp
        · rw [if_neg hb]
          have heq : (t + 1 - 1) / mx = (t - 1) / mx := by
            have hts : t + 1 - 1 = t := by omega
            rw [hts]
            rcases Nat.eq_zero_or_pos t with rfl | ht
            · simp
            · have hmod : t % mx ≠ 0 := fun h => hb ⟨ht, h⟩
              have hndvd : ¬ mx ∣ t := fun hd =>
                hmod (Nat.mod_eq_zero_of_dvd hd)
              have hsd := Nat.succ_div (t - 1) mx
              have ht1 : t - 1 + 1 = t := by omega
              rw [ht1] at hsd
              rw [hsd, if_neg hndvd]
              omega
          rw [heq]
      simp only [writeAll, List.length_cons]
      have harith : t + (rs.length + 1) = (t + 1) + rs.length := by omega
      rw [harith]
      exact ih (writeRecTotal m r) (t + 1)
        (fun x hx => hp x (List.mem_cons_of_mem r hx)) hml2 hci2 hmain

/-! ## Small indexing helpers -/

theorem map_getD {α β : Type} (f : α → β) (l : List α) (i : Nat) (d : α) :
    (l.map f).getD i (f d) = f (l.getD i d) := by
  rw [List.getD_eq_getElem?_getD, List.getD_eq_getElem?_getD, List.getElem?_map]
  cases l[i]? <;> rfl

theorem startIdx_getD {m2 : ManifestState} {K mx : Nat}
    (hst : m2.catalogs.map (fun c => c.start_index)
      = (List.range K).map (fun i => i * mx)) {i : Nat} (hi : i < K) :
    (m2.catalogs.getD i { lines := [], start_index := 0 }).start_index = i * mx := by
  have h1 : (m2.catalogs.map (fun c => c.start_index)).getD i 0
      = (m2.catalogs.getD i { lines := [], start_index := 0 }).start_index :=
    map_getD (fun c => c.start_index) m2.catalogs i { lines := [], start_index := 0 }
  have h2 : ((List.range K).map (fun j => j * mx)).getD i 0 = i * mx := by
    rw [List.getD_eq_getElem?_getD, List.getElem?_map, List.getElem?_range hi]
    rfl
  rw [← h1, hst]
  exact h2

/-! ## The datastore operations as a sequence -/

/-- One client-visible mutating operation on the datastore. -/
inductive DsOp where
  | write (r : Jv)
  | delete (idxs : Finset Nat)
  | restore (idxs : Finset Nat)

def applyOp (m : ManifestState) : DsOp → ManifestState
  | .write r => writeRecTotal m r
  | .delete idxs => m.delete_records idxs
  | .restore idxs => m.restore_records idxs

def applyOps (m : ManifestState) (ops : List DsOp) : ManifestState :=
  ops.foldl applyOp m

/-! ## Concrete example states (used by the witnesses below) -/

/-- A datastore holding one written record (`null` at logical index 0)
with `max_len = 1`, so the next write is at a rollover boundary. -/
def exM1 : ManifestState :=
  { catalogs := [{ lines := ["null"], start_index := 0 }], current_index := 1,
    max_len := 1, deleted_indexes := ∅, inputs := [], types := [] }

/-- A one-line file holding the line `a`. -/
def exSeek1 : Seekable :=
  { content := ['a', '\n'], pos := 2, read_only := true,
    line_lengths := [2], cumulative_lengths := [2], total_length := 2 }

/-- A two-line writable file holding the lines `a` and `b`. -/
def exSeek2 : Seekable :=
  { content := ['a', '\n', 'b', '\n'], pos := 4, read_only := false,
    line_lengths := [2, 2], cumulative_lengths := [2, 4], total_length := 4 }

/-! ## The claims -/

/-- C1 (amended).  A `write_record` whose record holds a non-finite
float raises the serialization `ValueError` to the caller, leaves
`current_index`, the deleted-index set and all stored record bytes
unchanged — but at a segment-rollover boundary (`current_index` a
positive multiple of `max_len`) the rollover catalog has already been
created before serialization is attempted, so the catalog-file list
grows by one empty catalog; away from the boundary the state is fully
unchanged. -/
theorem claim_C1 (m : ManifestState) (r : Jv) (h : hasNonFinite r = true) :
    ∃ me, m.write_record r = .error me ∧
      me.current_index = m.current_index ∧
      me.deleted_indexes = m.deleted_indexes ∧
      me.allLines = m.allLines ∧
      me.catalogs = (if 0 < m.current_index ∧ m.current_index % m.max_len = 0
        then m.catalogs ++ [{ lines := [], start_index := m.current_index }]
        else m.catalogs) := by
  have hd : dumps r = none := dumps_nonfinite h
  by_cases hb : 0 < m.current_index ∧ m.current_index % m.max_len = 0
  · refine ⟨m.add_catalog, ?_, rfl, rfl, allLines_add_catalog m, ?_⟩
    · simp [ManifestState.write_record, hd, hb]
    · rw [if_pos hb]
      rfl
  · refine ⟨m, ?_, rfl, rfl, rfl, ?_⟩
    · simp [ManifestState.write_record, hd, hb]
    · rw [if_neg hb]

/-- C1 counterexample to the claim as stated: at the rollover boundary
(`current_index = 1`, `max_len = 1`) a failing `write_record` leaves
the datastore with a changed catalog list (an extra empty catalog). -/
theorem claim_C1_counterexample :
    ∃ me, ManifestState.write_record exM1 Jv.jnan = .error me ∧
      me.catalogs ≠ exM1.catalogs := by
  have hd : dumps Jv.jnan = none := dumps_nonfinite rfl
  have hb : 0 < exM1.current_index ∧ exM1.current_index % exM1.max_len = 0 := by
    constructor <;> decide
  refine ⟨exM1.add_catalog, ?_, ?_⟩
  · simp [ManifestState.write_record, hd, hb]
  · decide

theorem claim_C1_witness :
    hasNonFinite Jv.jnan = true ∧
    (∃ me, ManifestState.write_record exM1 Jv.jnan = .error me ∧
      me.current_index = exM1.current_index ∧
      me.deleted_indexes = exM1.deleted_indexes ∧
      me.allLines = exM1.allLines ∧
      me.catalogs = (if 0 < exM1.current_index ∧
          exM1.current_index % exM1.max_len = 0
        then exM1.catalogs ++ [{ lines := [], start_index := exM1.current_index }]
        else exM1.catalogs)) :=
  ⟨rfl, claim_C1 exM1 Jv.jnan rfl⟩

/-- C2.  Writing `mx * k + 1` serializable records (`k ≥ 1`,
`max_segment_len = mx ≥ 1`) into a fresh datastore yields exactly
`k + 1` catalog files, the `i`-th carrying `start_index = i * mx`. -/
theorem claim_C2 (ins tys : List String) (mx k : Nat) (hmx : 1 ≤ mx) (hk : 1 ≤ k)
    (rs : List Jv) (hser : ∀ r ∈ rs, (dumps r).isSome = true)
    (hlen : rs.length = mx * k + 1) :
    (writeAll (freshManifest ins tys mx) rs).catalogs.length = k + 1 ∧
    ∀ i, i ≤ k →
      ((writeAll (freshManifest ins tys mx) rs).catalogs.getD i
        { lines := [], start_index := 0 }).start_index = i * mx := by
  have hfr : (freshManifest ins tys mx).catalogs.map (fun c => c.start_index)
      = (List.range ((0 - 1) / mx + 1)).map (fun i => i * mx) := by
    have h1 : (0 - 1) / mx + 1 = 1 := by rw [Nat.zero_sub, Nat.zero_div]
    rw [h1]
    simp [freshManifest, ManifestState.add_catalog, List.range_succ]
  obtain ⟨hci, hml, hst⟩ :=
    writeAll_inv mx hmx rs (freshManifest ins tys mx) 0 hser rfl rfl hfr
  have hdivk : (0 + rs.length - 1) / mx + 1 = k + 1 := by
    rw [hlen]
    have h0 : 0 + (mx * k + 1) - 1 = mx * k := by omega
    rw [h0, Nat.mul_div_cancel_left k (by omega)]
  rw [hdivk] at hst
  have hlencat : (writeAll (freshManifest ins tys mx) rs).catalogs.length = k + 1 := by
    have hc := congrArg List.length hst
    simpa using hc
  refine ⟨hlencat, ?_⟩
  intro i hi
  exact startIdx_getD hst (by omega)

theorem claim_C2_witness :
    (writeAll (freshManifest [] [] 1) [Jv.jnull, Jv.jnull]).catalogs.length = 1 + 1 ∧
    ∀ i, i ≤ 1 →
      ((writeAll (freshManifest [] [] 1) [Jv.jnull, Jv.jnull]).catalogs.getD i
        { lines := [], start_index := 0 }).start_index = i * 1 :=
  claim_C2 [] [] 1 1 (by decide) (by decide) [Jv.jnull, Jv.jnull]
    (by
      intro r hr
      have hrr : r = Jv.jnull := by
        rcases List.mem_cons.mp hr with h | h
        · exact h
        · simpa using h
      subst hrr
      simp [dumps, dumpVal])
    (by decide)

/-- C3.  Round trip: for every record in the modelled JSON fragment
(canonically key-sorted, as a Python dict is, with finite floats),
`write_record` succeeds and the record can be read back at its logical
index both by a direct segment read (`recordAt`) and as the new last
element of the iterator's output. -/
theorem claim_C3 (m : ManifestState) (hwf : WfManifest m) (r : Jv)
    (hfin : hasNonFinite r = false) (hstr : strsOk r = true)
    (hcan : canonVal r = true) (hdel : m.current_index ∉ m.deleted_indexes) :
    ∃ m2, m.write_record r = .ok m2 ∧
      m2.recordAt m.current_index = some r ∧
      iterOutput m2 = iterOutput m ++ [r] := by
  obtain ⟨s, hs⟩ := dumps_total hfin hstr
  obtain ⟨m2, hok, hall, hci, hml, hdel2, hne2, hsum⟩ :=
    write_record_fields hs hwf.catalogs_ne
  have hN : m.allLines.length = m.current_index := allLines_current hwf
  have hload : loads s = some r := loads_dumps_canon hcan hs
  refine ⟨m2, hok, ?_, ?_⟩
  · simp only [ManifestState.recordAt, ManifestState.lineAt]
    rw [hall, ← hN, List.get?_concat_length]
    exact hload
  · show remList m2.deleted_indexes 0 m2.allLines
      = remList m.deleted_indexes 0 m.allLines ++ [r]
    rw [hdel2, hall, remList_append m.deleted_indexes m.allLines 0 [s]]
    congr 1
    have hcounter : 0 + m.allLines.length = m.current_index := by omega
    rw [hcounter, remList, if_neg hdel, hload]
    rfl

theorem claim_C3_witness :
    WfManifest exM1 ∧ hasNonFinite Jv.jnull = false ∧ strsOk Jv.jnull = true ∧
    canonVal Jv.jnull = true ∧ exM1.current_index ∉ exM1.deleted_indexes ∧
    (∃ m2, exM1.write_record Jv.jnull = .ok m2 ∧
      m2.recordAt exM1.current_index = some Jv.jnull ∧
      iterOutput m2 = iterOutput exM1 ++ [Jv.jnull]) :=
  ⟨⟨by decide, by decide, by decide, by decide⟩, rfl, rfl, rfl, by decide,
    claim_C3 exM1 ⟨by decide, by decide, by decide, by decide⟩ Jv.jnull rfl rfl rfl
      (by decide)⟩

/-- C4.  Deletion is soft: for a written, non-deleted logical index
`i`, after `delete_records {i}` the stored bytes are unchanged but the
iterator's output loses exactly the record at index `i` (both flanks
unchanged, in order); `restore_records {i}` restores the original
output exactly. -/
theorem claim_C4 (m : ManifestState) (hwf : WfManifest m) (i : Nat)
    (hi : i < m.current_index) (hid : i ∉ m.deleted_indexes) :
    ∃ ri, loads (m.allLines.getD i "") = some ri ∧
      (m.delete_records {i}).allLines = m.allLines ∧
      iterOutput m = remList m.deleted_indexes 0 (m.allLines.take i)
        ++ ri :: remList m.deleted_indexes (i + 1) (m.allLines.drop (i + 1)) ∧
      iterOutput (m.delete_records {i})
        = remList m.deleted_indexes 0 (m.allLines.take i)
          ++ remList m.deleted_indexes (i + 1) (m.allLines.drop (i + 1)) ∧
      iterOutput ((m.delete_records {i}).restore_records {i}) = iterOutput m := by
  have hN : m.allLines.length = m.current_index := allLines_current hwf
  have hiN : i < m.allLines.length := by omega
  have hmem : m.allLines.getD i "" ∈ m.allLines := getD_mem _ _ _ hiN
  obtain ⟨hne, hparse⟩ := allLines_ok hwf _ hmem
  obtain ⟨ri, hri⟩ := Option.isSome_iff_exists.mp hparse
  have hsplit : m.allLines
      = m.allLines.take i ++ m.allLines.getD i "" :: m.allLines.drop (i + 1) := by
    conv_lhs => rw [← List.take_append_drop i m.allLines]
    rw [drop_getD_cons m.allLines i "" hiN]
  have htklen : (m.allLines.take i).length = i := by
    rw [List.length_take]
    omega
  have hcounter : 0 + (m.allLines.take i).length = i := by
    rw [htklen]
    omega
  have hmemD : i ∈ m.deleted_indexes ∪ {i} := by simp
  have hout : iterOutput m = remList m.deleted_indexes 0 (m.allLines.take i)
      ++ ri :: remList m.deleted_indexes (i + 1) (m.allLines.drop (i + 1)) := by
    show remList m.deleted_indexes 0 m.allLines = _
    conv_lhs => rw [hsplit]
    rw [remList_append m.deleted_indexes (m.allLines.take i) 0 _, hcounter]
    congr 1
    rw [remList, if_neg hid, hri]
  have hcg1 : remList (m.deleted_indexes ∪ {i}) 0 (m.allLines.take i)
      = remList m.deleted_indexes 0 (m.allLines.take i) := by
    apply remList_congr
    intro j h1 h2
    rw [htklen] at h2
    simp only [Finset.mem_union, Finset.mem_singleton]
    constructor
    · rintro (hj | rfl)
      · exact hj
      · exact absurd h2 (by omega)
    · exact Or.inl
  have hcg2 : remList (m.deleted_indexes ∪ {i}) (i + 1) (m.allLines.drop (i + 1))
      = remList m.deleted_indexes (i + 1) (m.allLines.drop (i + 1)) := by
    apply remList_congr
    intro j h1 h2
    simp only [Finset.mem_union, Finset.mem_singleton]
    constructor
    · rintro (hj | rfl)
      · exact hj
      · exact absurd h1 (by omega)
    · exact Or.inl
  have hout2 : iterOutput (m.delete_records {i})
      = remList m.deleted_indexes 0 (m.allLines.take i)
        ++ remList m.deleted_indexes (i + 1) (m.allLines.drop (i + 1)) := by
    show remList (m.deleted_indexes ∪ {i}) 0 m.allLines = _
    conv_lhs => rw [hsplit]
    rw [remList_append (m.deleted_indexes ∪ {i}) (m.allLines.take i) 0 _, hcounter]
    rw [hcg1]
    congr 1
    rw [remList, if_pos hmemD, hcg2]
  have hres : (m.deleted_indexes ∪ {i}) \ {i} = m.deleted_indexes := by
    ext j
    simp only [Finset.mem_sdiff, Finset.mem_union, Finset.mem_singleton]
    constructor
    · rintro ⟨hj | rfl, hne2⟩
      · exact hj
      · exact absurd rfl hne2
    · intro hj
      refine ⟨Or.inl hj, ?_⟩
      intro hji
      subst hji
      exact hid hj
  refine ⟨ri, hri, rfl, hout, hout2, ?_⟩
  show remList ((m.deleted_indexes ∪ {i}) \ {i}) 0 m.allLines
    = remList m.deleted_indexes 0 m.allLines
  rw [hres]

theorem claim_C4_witness :
    WfManifest exM1 ∧ 0 < exM1.current_index ∧ 0 ∉ exM1.deleted_indexes ∧
    (∃ ri, loads (exM1.allLines.getD 0 "") = some ri ∧
      (exM1.delete_records {0}).allLines = exM1.allLines ∧
      iterOutput exM1 = remList exM1.deleted_indexes 0 (exM1.allLines.take 0)
        ++ ri :: remList exM1.deleted_indexes (0 + 1) (exM1.allLines.drop (0 + 1)) ∧
      iterOutput (exM1.delete_records {0})
        = remList exM1.deleted_indexes 0 (exM1.allLines.take 0)
          ++ remList exM1.deleted_indexes (0 + 1) (exM1.allLines.drop (0 + 1)) ∧
      iterOutput ((exM1.delete_records {0}).restore_records {0})
        = iterOutput exM1) :=
  ⟨⟨by decide, by decide, by decide, by decide⟩, by decide, by decide,
    claim_C4 exM1 ⟨by decide, by decide, by decide, by decide⟩ 0 (by decide)
      (by decide)⟩

/-- C5.  With `N = current_index` written well-formed records and a
deleted set `D` inside the written range, a fresh iterator yields
exactly `N - |D|` records — call `k` reads record `k` of `iterOutput` —
and raises `StopIteration` on every call from position `N - |D|` on;
the call sequence is a function of the (unmodified) datastore alone, so
a second fresh iterator repeats it verbatim. -/
theorem claim_C5 (m : ManifestState) (hwf : WfManifest m)
    (hD : m.deleted_indexes ⊆ Finset.range m.current_index) :
    (iterOutput m).length + m.deleted_indexes.card = m.current_index ∧
    (∀ k, (nextCalls m initIter k).map Prod.fst = (iterOutput m).get? k) ∧
    (∀ k, (iterOutput m).length ≤ k → nextCalls m initIter k = none) := by
  have hN : m.allLines.length = m.current_index := allLines_current hwf
  have hparse : ∀ s ∈ m.allLines, (loads s).isSome = true :=
    fun s hs => (allLines_ok hwf s hs).2
  have hlen := remList_length m.deleted_indexes m.allLines 0 hparse
  have hinter : m.deleted_indexes ∩ Finset.Ico 0 (0 + m.allLines.length)
      = m.deleted_indexes := by
    rw [Finset.inter_eq_left]
    intro j hj
    have hr := hD hj
    simp only [Finset.mem_range] at hr
    simp only [Finset.mem_Ico]
    omega
  rw [hinter] at hlen
  refine ⟨?_, nextCalls_init m hwf, nextCalls_exhausted m hwf⟩
  show (remList m.deleted_indexes 0 m.allLines).length + m.deleted_indexes.card
    = m.current_index
  omega

theorem claim_C5_witness :
    WfManifest exM1 ∧ exM1.deleted_indexes ⊆ Finset.range exM1.current_index ∧
    ((iterOutput exM1).length + exM1.deleted_indexes.card = exM1.current_index ∧
    (∀ k, (nextCalls exM1 initIter k).map Prod.fst = (iterOutput exM1).get? k) ∧
    (∀ k, (iterOutput exM1).length ≤ k → nextCalls exM1 initIter k = none)) :=
  ⟨⟨by decide, by decide, by decide, by decide⟩, by decide,
    claim_C5 exM1 ⟨by decide, by decide, by decide, by decide⟩ (by decide)⟩

/-- C6.  Length invariant: after every prefix of any sequence of
`write_record` / `delete_records` / `restore_records` operations,
`len(datastore)` equals `current_index - |deleted_indexes|` (`__len__`
recomputes exactly this expression from the two fields every call, so
the invariant holds definitionally at every state). -/
theorem claim_C6 (m0 : ManifestState) (ops : List DsOp) (j : Nat) :
    ManifestState.len (applyOps m0 (ops.take j))
      = ((applyOps m0 (ops.take j)).current_index : Int)
        - ((applyOps m0 (ops.take j)).deleted_indexes.card : Int) := rfl

/-- C7.  Reopening with the empty requested schema recovers the stored
schema and the identical record sequence; reopening with any other
schema than the stored one fails with the assertion identifying both
schemas. -/
theorem claim_C7 (m : ManifestState) (hwf : WfManifest m) :
    (∃ m2, openExisting m [] [] = .ok m2 ∧ m2.inputs = m.inputs ∧
      m2.types = m.types ∧ iterOutput m2 = iterOutput m) ∧
    (∀ ins tys, ¬ (ins = [] ∧ tys = []) → ¬ (ins = m.inputs ∧ tys = m.types) →
      openExisting m ins tys = .error
        { new_inputs := ins, stored_inputs := m.inputs,
          new_types := tys, stored_types := m.types }) := by
  have hne : m.catalogs.isEmpty = false := by
    rcases hq : m.catalogs with _ | ⟨c, cs⟩
    · exact absurd hq hwf.catalogs_ne
    · rfl
  constructor
  · refine ⟨m, ?_, rfl, rfl, rfl⟩
    simp [openExisting, readContents, hne]
  · intro ins tys h1 h2
    simp [openExisting, readContents, h1, h2]

theorem claim_C7_witness :
    WfManifest exM1 ∧
    ((∃ m2, openExisting exM1 [] [] = .ok m2 ∧ m2.inputs = exM1.inputs ∧
      m2.types = exM1.types ∧ iterOutput m2 = iterOutput exM1) ∧
    (∀ ins tys, ¬ (ins = [] ∧ tys = []) →
      ¬ (ins = exM1.inputs ∧ tys = exM1.types) →
      openExisting exM1 ins tys = .error
        { new_inputs := ins, stored_inputs := exM1.inputs,
          new_types := tys, stored_types := exM1.types })) :=
  ⟨⟨by decide, by decide, by decide, by decide⟩,
    claim_C7 exM1 ⟨by decide, by decide, by decide, by decide⟩⟩

/-- C8 (amended).  `read_line_at(n)` returns the newline-stripped
content of logical line `n` for `1 ≤ n ≤ L`, and the empty string at
`n = L + 1` (the read starts at end of file); but for every `n ≥ L + 2`
the cumulative-index lookup is out of range, `_offset_until` falls back
to offset `0`, and the call returns line 1 — not the empty string. -/
theorem claim_C8 {lines : List String} {s : Seekable} (hwf : SeekableWf lines s)
    (n : Nat) :
    (1 ≤ n → n ≤ lines.length + 1 → s.readLineAt n = lines.getD (n - 1) "") ∧
    (lines.length + 2 ≤ n → s.readLineAt n = lines.getD 0 "") :=
  ⟨fun h1 h2 => readLineAt_wf hwf n h1 h2, fun h => readLineAt_past hwf n h⟩

/-- C8 counterexample to the claim as stated: on a one-line file
holding `a`, reading line 3 (past end of file) returns `a`, not the
empty string. -/
theorem claim_C8_counterexample :
    Seekable.readLineAt exSeek1 3 = "a" ∧ ("a" : String) ≠ "" := by
  constructor
  · rfl
  · decide

theorem claim_C8_witness :
    SeekableWf ["a"] exSeek1 ∧
    ((1 ≤ 3 → 3 ≤ (["a"] : List String).length + 1 →
      Seekable.readLineAt exSeek1 3 = (["a"] : List String).getD (3 - 1) "") ∧
    ((["a"] : List String).length + 2 ≤ 3 →
      Seekable.readLineAt exSeek1 3 = (["a"] : List String).getD 0 "")) :=
  ⟨⟨rfl, rfl, rfl, rfl, by decide⟩,
    claim_C8 ⟨rfl, rfl, rfl, rfl, by decide⟩ 3⟩

/-- C9 (amended).  For a writable file holding non-empty lines and a
non-empty newline-free replacement `c`, `update_line(n, c)` with
`1 ≤ n ≤ L` replaces exactly line `n`, leaving every other line
unchanged and in order.  (For `c = ""` the write raises `IndexError`
after the file has already been truncated — see the counterexample.) -/
theorem claim_C9 {lines : List String} {s : Seekable} (hwf : SeekableWf lines s)
    (hro : s.read_only = false) (n : Nat) (h1 : 1 ≤ n) (h2 : n ≤ lines.length)
    (c : String) (hc : c ≠ "") (hcl : cleanLine c = true)
    (hne : ∀ l ∈ lines, l ≠ "") :
    ∃ s2, s.updateLine n c = .ok s2 ∧
      SeekableWf (lines.take (n - 1) ++ c :: lines.drop n) s2 :=
  updateLine_wf hwf hro n h1 h2 hc hcl (fun l hl => hne l (List.mem_of_mem_drop hl))

/-- C9 counterexample to the claim as stated: replacing line 1 of the
two-line file `a`, `b` with the empty string raises (the `contents[-1]`
lookup in `writeline`), and it does so after `truncate_until_end` has
run, leaving the file truncated to nothing rather than holding the
claimed result. -/
theorem claim_C9_counterexample :
    Seekable.updateLine exSeek2 1 ""
      = .error { content := [], pos := 0, read_only := false,
                 line_lengths := [], cumulative_lengths := [], total_length := 0 } ∧
    ({ content := [], pos := 0, read_only := false, line_lengths := [],
       cumulative_lengths := [], total_length := 0 } : Seekable).content
      ≠ exSeek2.content := by
  constructor
  · rfl
  · decide

theorem claim_C9_witness :
    SeekableWf ["a", "b"] exSeek2 ∧ exSeek2.read_only = false ∧
    1 ≤ 1 ∧ 1 ≤ (["a", "b"] : List String).length ∧ ("x" : String) ≠ "" ∧
    cleanLine "x" = true ∧ (∀ l ∈ (["a", "b"] : List String), l ≠ "") ∧
    (∃ s2, Seekable.updateLine exSeek2 1 "x" = .ok s2 ∧
      SeekableWf ((["a", "b"] : List String).take (1 - 1)
        ++ "x" :: (["a", "b"] : List String).drop 1) s2) :=
  ⟨⟨rfl, rfl, rfl, rfl, by decide⟩, rfl, le_rfl, by decide, by decide, by decide,
    by decide,
    claim_C9 ⟨rfl, rfl, rfl, rfl, by decide⟩ rfl 1 le_rfl (by decide) "x"
      (by decide) (by decide) (by decide)⟩

/-- C10.  `delete_records` does no range validation: deleting a
never-written index `i ≥ current_index` (not already deleted) succeeds,
decrements `len` by one, and leaves the iterator's output unchanged —
so the iterator then yields more records than `len(datastore)`. -/
theorem claim_C10 (m : ManifestState) (hwf : WfManifest m) (i : Nat)
    (hi : m.current_index ≤ i) (hid : i ∉ m.deleted_indexes) :
    ManifestState.len (m.delete_records {i}) = ManifestState.len m - 1 ∧
    iterOutput (m.delete_records {i}) = iterOutput m ∧
    ManifestState.len (m.delete_records {i})
      < ((iterOutput (m.delete_records {i})).length : Int) := by
  have hN : m.allLines.length = m.current_index := allLines_current hwf
  have hcard : (m.deleted_indexes ∪ {i}).card = m.deleted_indexes.card + 1 := by
    rw [Finset.card_union_of_disjoint (Finset.disjoint_singleton_right.mpr hid)]
    simp
  have hout : iterOutput (m.delete_records {i}) = iterOutput m := by
    show remList (m.deleted_indexes ∪ {i}) 0 m.allLines
      = remList m.deleted_indexes 0 m.allLines
    apply remList_congr
    intro j hj1 hj2
    simp only [Finset.mem_union, Finset.mem_singleton]
    constructor
    · rintro (hj | rfl)
      · exact hj
      · exact absurd hj2 (by omega)
    · exact Or.inl
  have hlen := remList_length m.deleted_indexes m.allLines 0
    (fun t ht => (allLines_ok hwf t ht).2)
  have hinterle : (m.deleted_indexes ∩ Finset.Ico 0 (0 + m.allLines.length)).card
      ≤ m.deleted_indexes.card := Finset.card_le_card Finset.inter_subset_left
  refine ⟨?_, hout, ?_⟩
  · show ((m.current_index : Int) - (m.deleted_indexes ∪ {i}).card)
      = ((m.current_index : Int) - m.deleted_indexes.card) - 1
    rw [hcard]
    push_cast
    ring
  · rw [hout]
    show ((m.current_index : Int) - (m.deleted_indexes ∪ {i}).card)
      < ((remList m.deleted_indexes 0 m.allLines).length : Int)
    rw [hcard]
    push_cast
    omega

theorem claim_C10_witness :
    WfManifest exM1 ∧ exM1.current_index ≤ 5 ∧ 5 ∉ exM1.deleted_indexes ∧
    (ManifestState.len (exM1.delete_records {5}) = ManifestState.len exM1 - 1 ∧
    iterOutput (exM1.delete_records {5}) = iterOutput exM1 ∧
    ManifestState.len (exM1.delete_records {5})
      < ((iterOutput (exM1.delete_records {5})).length : Int)) :=
  ⟨⟨by decide, by decide, by decide, by decide⟩, by decide, by decide,
    claim_C10 exM1 ⟨by decide, by decide, by decide, by decide⟩ 5 (by decide)
      (by decide)⟩

end DonkeyDS
